import Mathlib

/-!
Verification development for the `fulltext` package: an in-memory full-text
index built from a trigram posting index (candidate retrieval) and a
per-document suffix array (false-positive elimination).

Texts are modelled as lists of ASCII byte values (`List Nat`); the package
documents itself as designed for ASCII character sets.  The service code in
`index.go` is embedded directly.  The two library dependencies that the
repository's source does not contain — the tokenizer `stringy.Analyze` and
the trigram posting index `go-trigram` — are modelled from the spec's
contracts for the Analyzer (§1 out-of-scope interface), the N-gram Extractor
(§4.1) and the Posting Index (§4.2).
-/

set_option autoImplicit false
set_option maxRecDepth 40000

namespace Fulltext

/-- Bytes of an ASCII string, used to state concrete scenarios. -/
def bytes (s : String) : List Nat := s.data.map Char.toNat

/-- The `strings.Replacer` from `index.go`: each of `-` (45), `_` (95),
`:` (58), `|` (124) becomes a space (32). -/
def replaceByte (b : Nat) : Nat :=
  if b = 45 ∨ b = 95 ∨ b = 58 ∨ b = 124 then 32 else b

/-- Apply the replacer to a whole text (`replacer.Replace`). -/
def replaceAll (l : List Nat) : List Nat := l.map replaceByte

/-- ASCII letters and digits, the characters that form word tokens. -/
def isAlnum (b : Nat) : Bool :=
  decide ((97 ≤ b ∧ b ≤ 122) ∨ (65 ≤ b ∧ b ≤ 90) ∨ (48 ≤ b ∧ b ≤ 57))

/-- ASCII lowercasing of one byte. -/
def lower (b : Nat) : Nat := if 65 ≤ b ∧ b ≤ 90 then b + 32 else b

/-- Tokenizer worker: `run` holds the bytes of the alphanumeric run read so
far, in reverse; a delimiter or the end of input closes the run into a
lowercased token. -/
def tokenizeAux : List Nat → List Nat → List (List Nat)
  | [], run => if run.isEmpty then [] else [run.reverse.map lower]
  | b :: bs, run =>
    if isAlnum b then tokenizeAux bs (b :: run)
    else if run.isEmpty then tokenizeAux bs []
    else (run.reverse.map lower) :: tokenizeAux bs []

/-- Modelled from the spec: the Analyzer (`stringy.Analyze`, not part of this
repository's source) "converts raw text into an ordered sequence of lowercase
word tokens, splitting on whitespace and punctuation-like delimiters".
Tokens are the maximal runs of ASCII alphanumerics, lowercased; every other
byte is a delimiter (transliteration of non-ASCII input is outside the
modelled ASCII scope). -/
def tokenize (l : List Nat) : List (List Nat) := tokenizeAux l []

/-- A trigram: a window of (at most) three bytes, the degenerate short window
included.  The Go library packs three bytes into a `uint32`; the window list
is an equivalent injective encoding. -/
abbrev Gram := List Nat

/-- All width-3 windows of a byte list, in order. -/
def windows3 : List Nat → List Gram
  | a :: b :: c :: rest => [a, b, c] :: windows3 (b :: c :: rest)
  | _ => []

/-- Append a gram unless it is already present (`appendIfUnique` of the
trigram library). -/
def appendIfUnique (acc : List Gram) (g : Gram) : List Gram :=
  if g ∈ acc then acc else acc ++ [g]

/-- Modelled from the spec: the N-gram Extractor (§4.1, `trigram.Extract` of
the go-trigram library, not part of this repository's source) emits the
deduplicated width-3 windows of a token; "tokens shorter than the n-gram
width still yield at least one n-gram (degenerate case: the marker-prefixed
token itself)". -/
def extract (s : List Nat) (acc : List Gram) : List Gram :=
  if s.length < 3 then appendIfUnique acc s
  else (windows3 s).foldl appendIfUnique acc

/-- The underscore byte prepended to each token by `analyze` in `index.go`. -/
def underscore : Nat := 95

/-- The words of `analyze` in `index.go`: tokens of the replaced text, each
with an underscore marker prepended. -/
def analyzeWords (text : List Nat) : List (List Nat) :=
  (tokenize (replaceAll text)).map (fun t => underscore :: t)

/-- The `analyze` function of `index.go`: the accumulated trigrams of all
marker-prefixed words, and the words themselves. -/
def analyze (text : List Nat) : List Gram × List (List Nat) :=
  let ws := analyzeWords text
  (ws.foldl (fun acc w => extract w acc) [], ws)

/-! ### The posting index

Modelled from the spec (§4.2); the implementation (`go-trigram`) is not part
of this repository's source.  A posting entry is either an active list of
internal document ids (`some l`) or pruned (`none`): a pruned n-gram has had
its postings discarded and is "discarded from the intersection" on queries —
it constrains nothing.  An n-gram with no entry at all has an empty posting
set, so any query containing it has an empty intersection.  Pruning discards
an n-gram's postings for good — it "bounds the cost of future intersections
by discarding n-grams with no discriminative power", so a discarded n-gram
does not accumulate postings again: insertion into a pruned entry is a
no-op, and the entry stays a wildcard.  `total` counts every internal id
ever allocated (`AddTrigrams` allocates fresh ids and ids are never returned
to the allocator). -/

/-- Association-list lookup. -/
def alookup {α β : Type} [DecidableEq α] (k : α) : List (α × β) → Option β
  | [] => none
  | (k', v) :: t => if k = k' then some v else alookup k t

/-- Association-list update of an existing key (appends when absent). -/
def aset {α β : Type} [DecidableEq α] (k : α) (v : β) : List (α × β) → List (α × β)
  | [] => [(k, v)]
  | (k', v') :: t => if k = k' then (k, v) :: t else (k', v') :: aset k v t

/-- Association-list removal of a key's entry. -/
def aerase {α β : Type} [DecidableEq α] (k : α) : List (α × β) → List (α × β)
  | [] => []
  | (k', v') :: t => if k = k' then t else (k', v') :: aerase k t

/-- The trigram posting index state. -/
structure TrigramIndex where
  postings : List (Gram × Option (List Nat))
  total : Nat
deriving DecidableEq

/-- The empty posting index (`trigram.NewIndex(nil)`). -/
def TrigramIndex.empty : TrigramIndex := ⟨[], 0⟩

/-- Insert an internal id into one gram's posting set: a fresh entry becomes
the singleton list, an active list is appended to, and a pruned entry stays
pruned — its posting set was discarded, so ids are not added to it. -/
def insertPosting (g : Gram) (id : Nat) (ps : List (Gram × Option (List Nat))) :
    List (Gram × Option (List Nat)) :=
  match alookup g ps with
  | none => ps ++ [(g, some [id])]
  | some none => ps
  | some (some l) => aset g (some (l ++ [id])) ps

/-- `AddTrigrams`: allocate a fresh internal id and insert it into the
posting set of every supplied gram. -/
def TrigramIndex.addTrigrams (ix : TrigramIndex) (ts : List Gram) : TrigramIndex × Nat :=
  (⟨ts.foldl (fun ps g => insertPosting g ix.total ps) ix.postings, ix.total + 1⟩, ix.total)

/-- Remove an id from one gram's active posting list (no-op on pruned or
absent entries: deletion is idempotent). -/
def delPosting (g : Gram) (id : Nat) (ps : List (Gram × Option (List Nat))) :
    List (Gram × Option (List Nat)) :=
  match alookup g ps with
  | some (some l) => aset g (some (l.erase id)) ps
  | _ => ps

/-- `Delete(word, docID)`: re-derive the word's grams and remove the id from
each posting set. -/
def TrigramIndex.deleteWord (ix : TrigramIndex) (w : List Nat) (id : Nat) : TrigramIndex :=
  ⟨(extract w []).foldl (fun ps g => delPosting g id ps) ix.postings, ix.total⟩

/-- `Prune(0.1)`: discard the postings of every gram whose posting-set size
exceeds one tenth of the total indexed documents (the fixed threshold
`index.go` passes). -/
def TrigramIndex.prune (ix : TrigramIndex) : TrigramIndex :=
  ⟨ix.postings.map (fun e =>
      (e.1, match e.2 with
            | some l => if 10 * l.length > ix.total then none else some l
            | none => none)),
   ix.total⟩

/-- `QueryTrigrams`: the candidate ids, in ascending internal-id order — the
intersection of the posting sets of the supplied grams, where a pruned gram
constrains nothing and a gram with no entry has an empty posting set.  An
empty gram list yields no candidates. -/
def TrigramIndex.queryTrigrams (ix : TrigramIndex) (ts : List Gram) : List Nat :=
  if ts.isEmpty then []
  else (List.range ix.total).filter (fun d =>
    ts.all (fun g =>
      match alookup g ix.postings with
      | none => false
      | some none => true
      | some (some l) => l.contains d))

/-! ### The service (`index.go`) -/

/-- The suffix-array delimiter `saDelim = "\x00"`. -/
def saDelim : Nat := 0

/-- Document metadata (`meta` in `index.go`): the word list the per-document
suffix array indexes, and the external document id.  The suffix array is
built over exactly the delimited text `buildSaText saWords` and answers
substring queries over it, so the word list stands for it. -/
structure Meta where
  saWords : List (List Nat)
  id : Nat
deriving DecidableEq

/-- The text the suffix array is built over in `Upsert`: for each word a
delimiter then the word, and one final delimiter. -/
def buildSaText (ws : List (List Nat)) : List Nat :=
  (ws.foldl (fun b w => b ++ saDelim :: w) []) ++ [saDelim]

/-- The suffix-array membership test `doc.sa.Lookup([]byte(word), 1) == nil`:
a suffix array over `m` finds `pat` exactly when `pat` is a contiguous
substring of `m`. -/
def saLookup (m : List Nat) (pat : List Nat) : Bool := decide (pat <:+: m)

/-- A document passed to `Upsert`. -/
structure Doc where
  ID : Nat
  Text : List Nat
  PriorText : List Nat
deriving DecidableEq

/-- The service state: internal-id-keyed metadata, the identity map from
external to internal ids, and the posting index. -/
structure Service where
  docs : List (Nat × Meta)
  extIDs : List (Nat × Nat)
  idx : TrigramIndex
deriving DecidableEq

/-- `NewService`. -/
def Service.empty : Service := ⟨[], [], TrigramIndex.empty⟩

/-- `DocCount`. -/
def Service.docCount (svc : Service) : Nat := svc.docs.length

/-- The validation errors `Upsert` returns, by offending batch position:
`zeroID i` for `docs[i]: ID must be greater than zero`, `missingPrior i` for
`docs[i] is already indexed, but the OldText parameter was not provided`. -/
inductive UpsertErr
  | zeroID (i : Nat)
  | missingPrior (i : Nat)
deriving DecidableEq

/-- The validation loop of `Upsert`, reading the identity map of the state
before any mutation. -/
def validate (ext : List (Nat × Nat)) : List Doc → Nat → Option UpsertErr
  | [], _ => none
  | d :: ds, i =>
    if d.ID = 0 then some (.zeroID i)
    else if (alookup d.ID ext).isSome && d.PriorText.isEmpty then some (.missingPrior i)
    else validate ext ds (i + 1)

/-- One iteration of the mutation loop of `Upsert`: delete the prior text's
postings and metadata when the external id is currently mapped, then index
the new text under a fresh internal id. -/
def applyDoc (s : Service) (d : Doc) : Service :=
  let s1 : Service :=
    match alookup d.ID s.extIDs with
    | some d0 =>
      { s with
        idx := ((analyze d.PriorText).2).foldl (fun ix w => ix.deleteWord w d0) s.idx,
        docs := aerase d0 s.docs }
    | none => s
  let a := analyze d.Text
  let p := s1.idx.addTrigrams a.1
  { docs := aset p.2 ⟨a.2, d.ID⟩ s1.docs,
    extIDs := aset d.ID p.2 s1.extIDs,
    idx := p.1 }

/-- `Upsert`: validate the whole batch against the pre-call state, and only
on success apply every document and then prune (`Sort` only normalizes
posting-list order, which this model keeps by construction).  The returned
state equals the input state whenever an error is returned. -/
def upsertRun (s : Service) (ds : List Doc) : Service × Option UpsertErr :=
  match validate s.extIDs ds 0 with
  | some e => (s, some e)
  | none =>
    let s' := ds.foldl applyDoc s
    ({ s' with idx := s'.idx.prune }, none)

/-- The three ways a `Search` call ends: the insufficient-query error (`query
does not have enough content`, nil result slice), the cancellation error
(`ctx.Err()`, nil result slice), or a result list with a nil error. -/
inductive SearchOutcome
  | insufficient
  | cancelled
  | results (ids : List Nat)
deriving DecidableEq

/-- The candidate loop of `Search`: poll the cancellation signal at each
candidate boundary, skip candidates with no metadata, and keep a candidate's
external id only when every query word passes its suffix-array check. -/
def searchLoop (svc : Service) (ctx : Nat → Bool) (ws : List (List Nat)) :
    List Nat → Nat → List Nat → SearchOutcome
  | [], _, acc => .results acc
  | d :: ds, i, acc =>
    if ctx i then .cancelled
    else
      match alookup d svc.docs with
      | none => searchLoop svc ctx ws ds (i + 1) acc
      | some m =>
        if ws.all (fun w => saLookup (buildSaText m.saWords) w) then
          searchLoop svc ctx ws ds (i + 1) (acc ++ [m.id])
        else
          searchLoop svc ctx ws ds (i + 1) acc

/-- `Search`, with the caller's cancellation context modelled as the oracle
`ctx i`: whether the context has become done by the time the `i`-th candidate
is about to be examined. -/
def search (svc : Service) (ctx : Nat → Bool) (query : List Nat) : SearchOutcome :=
  let a := analyze query
  if a.1.isEmpty then .insufficient
  else searchLoop svc ctx a.2 (svc.idx.queryTrigrams a.1) 0 []

/-- A context that never becomes done (`context.TODO()` of the tests). -/
def ctxNone : Nat → Bool := fun _ => false

/-- `Search` under a context that is never cancelled. -/
def searchNC (svc : Service) (query : List Nat) : SearchOutcome :=
  search svc ctxNone query

/-! ### Basic lemmas about the search loop -/

theorem searchLoop_ne_insufficient (svc : Service) (ctx : Nat → Bool)
    (ws : List (List Nat)) :
    ∀ (cands : List Nat) (i : Nat) (acc : List Nat),
      searchLoop svc ctx ws cands i acc ≠ .insufficient := by
  intro cands
  induction cands with
  | nil => intro i acc; simp [searchLoop]
  | cons d ds ih =>
    intro i acc
    simp only [searchLoop]
    split
    · simp
    · cases alookup d svc.docs with
      | none => exact ih _ _
      | some m =>
        dsimp only
        split
        · exact ih _ _
        · exact ih _ _

theorem searchLoop_cancelled (svc : Service) (ctx : Nat → Bool)
    (ws : List (List Nat)) :
    ∀ (cands : List Nat) (i : Nat) (acc : List Nat),
      (∃ j, j < cands.length ∧ ctx (i + j) = true) →
      searchLoop svc ctx ws cands i acc = .cancelled := by
  intro cands
  induction cands with
  | nil => intro i acc h; rcases h with ⟨j, hj, _⟩; simp at hj
  | cons d ds ih =>
    intro i acc h
    simp only [searchLoop]
    by_cases hc : ctx i = true
    · simp [hc]
    · have hrec : ∃ j, j < ds.length ∧ ctx (i + 1 + j) = true := by
        rcases h with ⟨j, hj, hcj⟩
        cases j with
        | zero => exact absurd hcj (by simpa using hc)
        | succ j' =>
          exact ⟨j', by simpa [Nat.succ_lt_succ_iff] using hj, by
            have : i + (j' + 1) = i + 1 + j' := by omega
            rwa [this] at hcj⟩
      simp only [hc, if_false, Bool.false_eq_true]
      cases alookup d svc.docs with
      | none => exact ih _ _ hrec
      | some m =>
        dsimp only
        split
        · exact ih _ _ hrec
        · exact ih _ _ hrec

/-- The search loop under a never-done context collects, in candidate order,
the external ids of the candidates that have metadata and whose text passes
every query word's suffix-array check. -/
theorem searchLoop_ctxNone (svc : Service) (ws : List (List Nat)) :
    ∀ (cands : List Nat) (i : Nat) (acc : List Nat),
      searchLoop svc ctxNone ws cands i acc =
        .results (acc ++ cands.filterMap (fun d =>
          match alookup d svc.docs with
          | none => none
          | some m => if ws.all (fun w => saLookup (buildSaText m.saWords) w) then some m.id else none)) := by
  intro cands
  induction cands with
  | nil => intro i acc; simp [searchLoop]
  | cons d ds ih =>
    intro i acc
    simp only [searchLoop, ctxNone, if_false, Bool.false_eq_true, List.filterMap_cons]
    cases h : alookup d svc.docs with
    | none => simpa using ih (i + 1) acc
    | some m =>
      dsimp only
      by_cases hv : ws.all (fun w => saLookup (buildSaText m.saWords) w)
      · simp only [hv, if_true, ih]
        simp
      · simp only [hv, if_false]
        simp only [Bool.false_eq_true, if_false, ih]

/-! ### Validation lemmas -/

/-- A document that fails `Upsert` validation against the identity map
`ext`: a zero external id, or an already-mapped id with empty `PriorText`. -/
def offends (ext : List (Nat × Nat)) (d : Doc) : Prop :=
  d.ID = 0 ∨ ((alookup d.ID ext).isSome ∧ d.PriorText = [])

instance (ext : List (Nat × Nat)) (d : Doc) : Decidable (offends ext d) := by
  unfold offends; infer_instance

/-- The error `validate` reports for the document at batch position `i`. -/
def describeErr (i : Nat) (d : Doc) : UpsertErr :=
  if d.ID = 0 then .zeroID i else .missingPrior i

theorem notOffends_cond (ext : List (Nat × Nat)) (d0 : Doc) (hnot : ¬ offends ext d0) :
    ((alookup d0.ID ext).isSome && d0.PriorText.isEmpty) = false := by
  rw [Bool.and_eq_false_iff]
  by_cases hs : (alookup d0.ID ext).isSome
  · right
    cases hp : d0.PriorText with
    | nil => exact absurd (Or.inr ⟨hs, hp⟩) hnot
    | cons a t => rfl
  · left; simpa using hs

theorem validate_first (ext : List (Nat × Nat)) :
    ∀ (ds : List Doc) (k i : Nat) (d : Doc), ds[i]? = some d → offends ext d →
      (∀ j, j < i → ∀ dj, ds[j]? = some dj → ¬ offends ext dj) →
      validate ext ds k = some (describeErr (k + i) d) := by
  intro ds
  induction ds with
  | nil => intro k i d hd _ _; simp at hd
  | cons d0 ds' ih =>
    intro k i d hd hoff hmin
    cases i with
    | zero =>
      have hd0 : d0 = d := by simpa using hd
      subst hd0
      simp only [validate, describeErr, Nat.add_zero]
      rcases hoff with h0 | ⟨hs, hp⟩
      · simp [h0]
      · by_cases h0 : d0.ID = 0
        · simp [h0]
        · have hpe : d0.PriorText.isEmpty = true := by simp [hp]
          simp [h0, hs, hpe]
    | succ i' =>
      have hnot : ¬ offends ext d0 := hmin 0 (Nat.succ_pos _) d0 (by simp)
      have h0 : ¬ d0.ID = 0 := fun h => hnot (Or.inl h)
      simp only [List.getElem?_cons_succ] at hd
      have hmin' : ∀ j, j < i' → ∀ dj, ds'[j]? = some dj → ¬ offends ext dj := by
        intro j hj dj hdj
        exact hmin (j + 1) (Nat.succ_lt_succ hj) dj (by simpa using hdj)
      have hrec := ih (k + 1) i' d hd hoff hmin'
      simp only [validate, h0, if_false, notOffends_cond ext d0 hnot, Bool.false_eq_true]
      rw [show k + (i' + 1) = k + 1 + i' from by omega]
      exact hrec

theorem validate_none (ext : List (Nat × Nat)) :
    ∀ (ds : List Doc) (k : Nat), (∀ d ∈ ds, ¬ offends ext d) → validate ext ds k = none := by
  intro ds
  induction ds with
  | nil => intro k _; simp [validate]
  | cons d0 ds' ih =>
    intro k h
    have hnot := h d0 (List.mem_cons_self _ _)
    have h0 : ¬ d0.ID = 0 := fun hh => hnot (Or.inl hh)
    simp only [validate, h0, if_false, notOffends_cond ext d0 hnot, Bool.false_eq_true]
    exact ih (k + 1) (fun d hd => h d (List.mem_cons_of_mem _ hd))

/-! ### Concrete fixtures (the documents of the repository's tests) -/

/-- Test document 1. -/
def docOne : Doc := ⟨1, bytes "The quick brown fox jumps over the lazy dog", []⟩

/-- Test document 2. -/
def docTwo : Doc := ⟨2, bytes "She sells sea shells by the sea shore", []⟩

/-- Test document 3. -/
def docThree : Doc := ⟨3, bytes "Peter Piper picked a peck of pickled peppers while jumping over the sea shells", []⟩

/-- The service of `TestService_Search`: the three documents upserted in one
batch into a fresh service. -/
def svc3 : Service := (upsertRun Service.empty [docOne, docTwo, docThree]).1

/-- A fresh service holding one document with text `fox`. -/
def svcFox : Service := (upsertRun Service.empty [⟨1, bytes "fox", []⟩]).1

/-- A context that is done from the start. -/
def ctxAll : Nat → Bool := fun _ => true

/-! ### Claim C5 -/

/-- C5: if some document of the batch has a zero ID, or an ID already present
in the identity map with an empty `PriorText`, then `Upsert` returns the
error describing the first such document in batch order, and the service
state is exactly what it was before the call. -/
theorem C5_batch_validation (s : Service) (ds : List Doc) (i : Nat) (d : Doc)
    (hd : ds[i]? = some d) (hoff : offends s.extIDs d)
    (hmin : ∀ j, j < i → ∀ dj, ds[j]? = some dj → ¬ offends s.extIDs dj) :
    upsertRun s ds = (s, some (describeErr i d)) := by
  unfold upsertRun
  rw [validate_first s.extIDs ds 0 i d hd hoff hmin]
  simp

/-- Witness for C5 at a concrete input: a batch whose only document has a
zero ID is rejected with `zeroID 0` and leaves the fresh service unchanged. -/
theorem C5_batch_validation_witness :
    upsertRun Service.empty [⟨0, [], []⟩] = (Service.empty, some (.zeroID 0)) := by
  have h := C5_batch_validation Service.empty [⟨0, [], []⟩] 0 ⟨0, [], []⟩ rfl
    (Or.inl rfl) (fun j hj => (Nat.not_lt_zero j hj).elim)
  simpa [describeErr] using h

/-! ### Claim C6 -/

/-- C6: a query from which analysis extracts no n-grams makes `Search` fail
with the insufficient-query error (and no result list), and a query from
which at least one n-gram is extracted never produces that error. -/
theorem C6_insufficient_query (svc : Service) (ctx : Nat → Bool) (q : List Nat) :
    ((analyze q).1 = [] → search svc ctx q = .insufficient) ∧
    ((analyze q).1 ≠ [] → search svc ctx q ≠ .insufficient) := by
  constructor
  · intro h
    simp [search, h]
  · intro h
    simp only [search]
    rw [if_neg (by simpa [List.isEmpty_iff] using h)]
    exact searchLoop_ne_insufficient svc ctx _ _ 0 []

/-- Witness for C6 at concrete inputs: the empty and a whitespace-only query
fail with the insufficient-query error; a non-empty word does not. -/
theorem C6_insufficient_query_witness :
    search Service.empty ctxNone (bytes "") = .insufficient ∧
    search Service.empty ctxNone (bytes " \t ") = .insufficient ∧
    search svcFox ctxNone (bytes "ab") ≠ .insufficient :=
  ⟨(C6_insufficient_query _ _ _).1 (by decide),
   (C6_insufficient_query _ _ _).1 (by decide),
   (C6_insufficient_query _ _ _).2 (by decide)⟩

/-! ### Claim C7 -/

/-- C7: `Search` polls the cancellation signal at each candidate-document
boundary; when the context is done by the time some candidate is examined,
the call returns the cancellation outcome, which carries no result list —
never a partial list of previously verified candidates. -/
theorem C7_cancellation (svc : Service) (ctx : Nat → Bool) (q : List Nat)
    (hq : (analyze q).1 ≠ [])
    (hc : ∃ j, j < (svc.idx.queryTrigrams (analyze q).1).length ∧ ctx j = true) :
    search svc ctx q = .cancelled := by
  simp only [search]
  rw [if_neg (by simpa [List.isEmpty_iff] using hq)]
  refine searchLoop_cancelled svc ctx _ _ 0 [] ?_
  simpa using hc

/-- Witness for C7 at a concrete input: a context that is already done
cancels a one-candidate search. -/
theorem C7_cancellation_witness : search svcFox ctxAll (bytes "fo") = .cancelled :=
  C7_cancellation svcFox ctxAll (bytes "fo") (by decide) ⟨0, by decide, rfl⟩

/-! ### Claim C4 -/

/-- C4: after upserting the three test documents into a fresh service (which
succeeds), `Search` answers `brow → [1]`, `row → []`, `jump → [1, 3]` in that
order, `fox sea → []`, `She shore → [2]`, `pET PiP → [3]`, each with no
error. -/
theorem C4_concrete_scenario :
    (upsertRun Service.empty [docOne, docTwo, docThree]).2 = none ∧
    searchNC svc3 (bytes "brow") = .results [1] ∧
    searchNC svc3 (bytes "row") = .results [] ∧
    searchNC svc3 (bytes "jump") = .results [1, 3] ∧
    searchNC svc3 (bytes "fox sea") = .results [] ∧
    searchNC svc3 (bytes "She shore") = .results [2] ∧
    searchNC svc3 (bytes "pET PiP") = .results [3] :=
  ⟨by decide, by decide, by decide, by decide, by decide, by decide, by decide⟩

/-! ### Counterexample fixtures -/

/-- A fresh service after indexing `ab` under external id 1 and then
updating it to `fox` with the correct prior text. -/
def svcUpd : Service :=
  (upsertRun (upsertRun Service.empty [⟨1, bytes "ab", []⟩]).1 [⟨1, bytes "fox", bytes "ab"⟩]).1

/-- A fresh service after indexing an empty text under external id 1. -/
def svcEmptyDoc : Service := (upsertRun Service.empty [⟨1, [], []⟩]).1

/-- Ten padding documents with distinct external ids 1..10 and text `pad`,
enough corpus for the prune threshold to keep singleton posting lists. -/
def padDocs : List Doc := (List.range 10).map (fun i => ⟨i + 1, bytes "pad", []⟩)

/-- The padding corpus indexed into a fresh service. -/
def svcPads : Service := (upsertRun Service.empty padDocs).1

/-- A batch that mentions the previously-unindexed external id 11 twice,
with the empty `PriorText` appropriate for an unindexed id. -/
def dupBatch : List Doc := [⟨11, bytes "zz", []⟩, ⟨11, bytes "zy", []⟩]

/-- The state after applying `dupBatch` on top of the padding corpus. -/
def svcDup : Service := (upsertRun svcPads dupBatch).1

/-! ### Counterexample theorems -/

/-- C2 counterexample: `f` is a non-empty prefix of the token `fox` of the
indexed document with external id 1, yet searching `f` returns the empty
result list — one-byte prefixes yield no indexed n-gram, so the claim fails
as stated. -/
theorem C2_counterexample :
    (upsertRun Service.empty [⟨1, bytes "fox", []⟩]).2 = none ∧
    tokenize (replaceAll (bytes "fox")) = [bytes "fox"] ∧
    bytes "f" ≠ [] ∧ bytes "f" <+: bytes "fox" ∧
    searchNC svcFox (bytes "f") = .results [] :=
  ⟨by decide, by decide, by decide, by decide, by decide⟩

/-- C3 counterexample: after updating document 1 from `ab` to `fox` with the
correct prior text, the term `f` occurs (as a token prefix) only in the new
text, yet searching it returns the empty list instead of exactly `[1]`. -/
theorem C3_counterexample :
    (upsertRun Service.empty [⟨1, bytes "ab", []⟩]).2 = none ∧
    (upsertRun (upsertRun Service.empty [⟨1, bytes "ab", []⟩]).1
      [⟨1, bytes "fox", bytes "ab"⟩]).2 = none ∧
    bytes "f" <+: bytes "fox" ∧ ¬ bytes "f" <+: bytes "ab" ∧
    tokenize (replaceAll (bytes "fox")) = [bytes "fox"] ∧
    tokenize (replaceAll (bytes "ab")) = [bytes "ab"] ∧
    searchNC svcUpd (bytes "f") = .results [] :=
  ⟨by decide, by decide, by decide, by decide, by decide, by decide, by decide⟩

/-- C9 counterexample: external id 1 was first indexed with empty text, so
the correct `PriorText` for a second empty-text upsert is the empty string —
but that second call fails validation instead of succeeding. -/
theorem C9_counterexample :
    (upsertRun Service.empty [⟨1, ([] : List Nat), []⟩]).2 = none ∧
    (upsertRun svcEmptyDoc [⟨1, ([] : List Nat), []⟩]).2 = some (.missingPrior 0) :=
  ⟨by decide, by decide⟩

/-- C1 counterexample: both upsert batches succeed and respect the caller
contract, the second mentioning the previously-unindexed external id 11
twice; afterwards the posting list of the gram `_zz` still contains the
internal id 10, which has been removed from the metadata map (external id 11
now maps to internal id 11) — a posting for a removed internal id, i.e.
stale text. -/
theorem C1_counterexample :
    (upsertRun Service.empty padDocs).2 = none ∧
    (upsertRun svcPads dupBatch).2 = none ∧
    alookup (bytes "_zz") svcDup.idx.postings = some (some [10]) ∧
    alookup 10 svcDup.docs = none ∧
    alookup 11 svcDup.extIDs = some 11 :=
  ⟨by decide, by decide, by decide, by decide, by decide⟩

/-! ### Case insensitivity (claim C8) -/

theorem isAlnum_true_iff (b : Nat) :
    isAlnum b = true ↔ ((97 ≤ b ∧ b ≤ 122) ∨ (65 ≤ b ∧ b ≤ 90) ∨ (48 ≤ b ∧ b ≤ 57)) := by
  simp [isAlnum]

theorem isAlnum_of_lower_eq {b1 b2 : Nat} (h : lower b1 = lower b2) :
    isAlnum b1 = isAlnum b2 := by
  simp only [isAlnum, decide_eq_decide]
  unfold lower at h
  split_ifs at h <;> omega

theorem lower_replaceByte_congr {b1 b2 : Nat} (h : lower b1 = lower b2) :
    lower (replaceByte b1) = lower (replaceByte b2) := by
  unfold lower replaceByte at *
  split_ifs at * <;> omega

theorem tokenizeAux_lower_congr :
    ∀ (l1 l2 run1 run2 : List Nat), l1.map lower = l2.map lower →
      run1.map lower = run2.map lower →
      tokenizeAux l1 run1 = tokenizeAux l2 run2 := by
  intro l1
  induction l1 with
  | nil =>
    intro l2 run1 run2 hl hr
    cases l2 with
    | nil =>
      have he : run1.isEmpty = run2.isEmpty := by
        cases run1 <;> cases run2 <;> simp_all
      simp only [tokenizeAux, he]
      split
      · rfl
      · rw [show run1.reverse.map lower = run2.reverse.map lower by
          rw [List.map_reverse, List.map_reverse, hr]]
    | cons b2 t2 => simp at hl
  | cons b1 t1 ih =>
    intro l2 run1 run2 hl hr
    cases l2 with
    | nil => simp at hl
    | cons b2 t2 =>
      simp only [List.map_cons, List.cons.injEq] at hl
      obtain ⟨hb, ht⟩ := hl
      have ha : isAlnum b1 = isAlnum b2 := isAlnum_of_lower_eq hb
      simp only [tokenizeAux, ha]
      by_cases h1 : isAlnum b2 = true
      · simp only [h1, if_true]
        exact ih t2 (b1 :: run1) (b2 :: run2) ht (by simp [hb, hr])
      · simp only [h1, if_false, Bool.false_eq_true]
        have he : run1.isEmpty = run2.isEmpty := by
          cases run1 <;> cases run2 <;> simp_all
        rw [he]
        split
        · exact ih t2 [] [] ht rfl
        · rw [show run1.reverse.map lower = run2.reverse.map lower by
            rw [List.map_reverse, List.map_reverse, hr]]
          rw [ih t2 [] [] ht rfl]

theorem analyze_lower_congr {x X : List Nat} (h : x.map lower = X.map lower) :
    analyze x = analyze X := by
  have hrepl : (replaceAll x).map lower = (replaceAll X).map lower := by
    unfold replaceAll
    rw [List.map_map, List.map_map]
    induction x generalizing X with
    | nil => cases X with
      | nil => rfl
      | cons b t => simp at h
    | cons b1 t1 ih =>
      cases X with
      | nil => simp at h
      | cons b2 t2 =>
        simp only [List.map_cons, List.cons.injEq] at h ⊢
        exact ⟨lower_replaceByte_congr h.1, ih h.2⟩
  have htok : tokenize (replaceAll x) = tokenize (replaceAll X) :=
    tokenizeAux_lower_congr _ _ [] [] hrepl rfl
  unfold analyze analyzeWords
  rw [htok]

/-- C8: two queries that are case variants of each other (equal after ASCII
lowercasing) produce identical `Search` outcomes — the same result list or
the same error — against any service state and any cancellation context. -/
theorem C8_case_insensitive (svc : Service) (ctx : Nat → Bool) (x X : List Nat)
    (h : x.map lower = X.map lower) : search svc ctx x = search svc ctx X := by
  unfold search
  rw [analyze_lower_congr h]

/-- Witness for C8 at a concrete input: `pET PiP` and `PET pip` give the same
outcome on the three-document test service. -/
theorem C8_case_insensitive_witness :
    search svc3 ctxNone (bytes "pET PiP") = search svc3 ctxNone (bytes "PET pip") :=
  C8_case_insensitive svc3 ctxNone (bytes "pET PiP") (bytes "PET pip") (by decide)

/-! ### Association-list lemmas -/

section AList

variable {α β : Type} [DecidableEq α]

theorem alookup_aset_self (k : α) (v : β) :
    ∀ l : List (α × β), alookup k (aset k v l) = some v := by
  intro l
  induction l with
  | nil => simp [aset, alookup]
  | cons p t ih =>
    by_cases h : k = p.1
    · simp [aset, alookup, h]
    · simp [aset, alookup, h, ih]

theorem alookup_aset_ne (k k' : α) (v : β) (hne : k' ≠ k) :
    ∀ l : List (α × β), alookup k' (aset k v l) = alookup k' l := by
  intro l
  induction l with
  | nil => simp [aset, alookup, hne]
  | cons p t ih =>
    by_cases h : k = p.1
    · subst h
      simp [aset, alookup, hne, ih]
    · by_cases h' : k' = p.1
      · simp [aset, alookup, h, h']
      · simp [aset, alookup, h, h', ih]

theorem alookup_aerase_ne (k k' : α) (hne : k' ≠ k) :
    ∀ l : List (α × β), alookup k' (aerase k l) = alookup k' l := by
  intro l
  induction l with
  | nil => simp [aerase]
  | cons p t ih =>
    by_cases h : k = p.1
    · subst h
      simp [aerase, alookup, hne]
    · by_cases h' : k' = p.1
      · simp [aerase, alookup, h, h']
      · simp [aerase, alookup, h, h', ih]

theorem keys_aerase (k : α) :
    ∀ l : List (α × β), (aerase k l).map Prod.fst = (l.map Prod.fst).erase k := by
  intro l
  induction l with
  | nil => simp [aerase]
  | cons p t ih =>
    by_cases h : k = p.1
    · simp [aerase, h, List.erase_cons_head]
    · rw [show (aerase k (p :: t)).map Prod.fst = p.1 :: (aerase k t).map Prod.fst by
        simp [aerase, h]]
      rw [ih, List.map_cons, List.erase_cons_tail (by simpa using Ne.symm h)]

theorem alookup_mem_keys {k : α} {v : β} :
    ∀ {l : List (α × β)}, alookup k l = some v → k ∈ l.map Prod.fst := by
  intro l
  induction l with
  | nil => intro h; simp [alookup] at h
  | cons p t ih =>
    intro h
    by_cases hk : k = p.1
    · simp [hk]
    · simp only [alookup, if_neg hk] at h
      simp [ih h]

theorem alookup_none_of_not_mem {k : α} :
    ∀ {l : List (α × β)}, k ∉ l.map Prod.fst → alookup k l = none := by
  intro l
  induction l with
  | nil => intro _; rfl
  | cons p t ih =>
    intro h
    simp only [List.map_cons, List.mem_cons, not_or] at h
    simp only [alookup, if_neg h.1]
    exact ih h.2

theorem alookup_aerase_self (k : α) :
    ∀ l : List (α × β), (l.map Prod.fst).Nodup → alookup k (aerase k l) = none := by
  intro l
  induction l with
  | nil => intro _; simp [aerase, alookup]
  | cons p t ih =>
    intro hnd
    simp only [List.map_cons, List.nodup_cons] at hnd
    by_cases h : k = p.1
    · subst h
      simp only [aerase, if_pos rfl]
      cases hl : alookup p.1 t with
      | none => exact hl
      | some v => exact absurd (alookup_mem_keys hl) hnd.1
    · simp only [aerase, if_neg h, alookup, if_neg h]
      exact ih hnd.2

theorem keys_aset_of_mem (k : α) (v : β) :
    ∀ l : List (α × β), k ∈ l.map Prod.fst →
      (aset k v l).map Prod.fst = l.map Prod.fst := by
  intro l
  induction l with
  | nil => intro h; simp at h
  | cons p t ih =>
    intro h
    by_cases hk : k = p.1
    · simp [aset, hk]
    · simp only [List.map_cons, List.mem_cons, or_iff_not_imp_left] at h
      simp [aset, hk, ih (h hk)]

theorem keys_aset_of_not_mem (k : α) (v : β) :
    ∀ l : List (α × β), k ∉ l.map Prod.fst →
      (aset k v l).map Prod.fst = l.map Prod.fst ++ [k] := by
  intro l
  induction l with
  | nil => intro _; simp [aset]
  | cons p t ih =>
    intro h
    simp only [List.map_cons, List.mem_cons, not_or] at h
    simp [aset, h.1, ih h.2]

theorem length_aset_of_mem (k : α) (v : β) :
    ∀ l : List (α × β), k ∈ l.map Prod.fst → (aset k v l).length = l.length := by
  intro l
  induction l with
  | nil => intro h; simp at h
  | cons p t ih =>
    intro h
    by_cases hk : k = p.1
    · simp [aset, hk]
    · simp only [List.map_cons, List.mem_cons, or_iff_not_imp_left] at h
      simp [aset, hk, ih (h hk)]

theorem length_aset_of_not_mem (k : α) (v : β) :
    ∀ l : List (α × β), k ∉ l.map Prod.fst → (aset k v l).length = l.length + 1 := by
  intro l
  induction l with
  | nil => intro _; simp [aset]
  | cons p t ih =>
    intro h
    simp only [List.map_cons, List.mem_cons, not_or] at h
    simp [aset, h.1, ih h.2]

theorem length_aerase_of_mem (k : α) :
    ∀ l : List (α × β), k ∈ l.map Prod.fst → (aerase k l).length + 1 = l.length := by
  intro l
  induction l with
  | nil => intro h; simp at h
  | cons p t ih =>
    intro h
    by_cases hk : k = p.1
    · simp [aerase, hk]
    · simp only [List.map_cons, List.mem_cons, or_iff_not_imp_left] at h
      simp [aerase, hk, ih (h hk)]

end AList

/-! ### The service bookkeeping invariant -/

/-- The bookkeeping invariant of a service state: the metadata map and the
identity map have duplicate-free key lists of equal length and are mutually
inverse (each identity-map entry points at a metadata entry carrying its
external id, and conversely), and every internal id in either map is below
the posting index's allocation counter. -/
structure Inv (s : Service) : Prop where
  docsNodup : (s.docs.map Prod.fst).Nodup
  extNodup : (s.extIDs.map Prod.fst).Nodup
  lenEq : s.docs.length = s.extIDs.length
  extToDocs : ∀ e d, alookup e s.extIDs = some d → ∃ m, alookup d s.docs = some m ∧ m.id = e
  docsToExt : ∀ d m, alookup d s.docs = some m → alookup m.id s.extIDs = some d
  docsLt : ∀ d, d ∈ s.docs.map Prod.fst → d < s.idx.total

theorem inv_empty : Inv Service.empty := by
  constructor <;> simp [Service.empty, alookup]

theorem extLt_of_inv {s : Service} (h : Inv s) :
    ∀ e d, alookup e s.extIDs = some d → d < s.idx.total := by
  intro e d hl
  obtain ⟨m, hm, _⟩ := h.extToDocs e d hl
  exact h.docsLt d (alookup_mem_keys hm)

theorem addTrigrams_total (ix : TrigramIndex) (ts : List Gram) :
    (ix.addTrigrams ts).1.total = ix.total + 1 := rfl

theorem deleteWord_total (ix : TrigramIndex) (w : List Nat) (id : Nat) :
    (ix.deleteWord w id).total = ix.total := rfl

theorem prune_total (ix : TrigramIndex) : ix.prune.total = ix.total := rfl

theorem foldl_deleteWord_total (ix : TrigramIndex) (ws : List (List Nat)) (id : Nat) :
    (ws.foldl (fun i w => i.deleteWord w id) ix).total = ix.total := by
  induction ws generalizing ix with
  | nil => rfl
  | cons w t ih => simp only [List.foldl_cons, ih, deleteWord_total]

theorem addTrigrams_snd (ix : TrigramIndex) (ts : List Gram) :
    (ix.addTrigrams ts).2 = ix.total := rfl

theorem alookup_isSome_of_mem {α β : Type} [DecidableEq α] {k : α} :
    ∀ {l : List (α × β)}, k ∈ l.map Prod.fst → (alookup k l).isSome := by
  intro l
  induction l with
  | nil => intro h; simp at h
  | cons p t ih =>
    intro h
    by_cases hk : k = p.1
    · simp [alookup, hk]
    · simp only [List.map_cons, List.mem_cons] at h
      rcases h with h | h
      · exact absurd h hk
      · simp only [alookup, if_neg hk]
        exact ih h

/-- `applyDoc` on a document whose external id is not currently mapped. -/
theorem applyDoc_eq_none {s : Service} {d : Doc} (h : alookup d.ID s.extIDs = none) :
    applyDoc s d =
      { docs := aset s.idx.total ⟨(analyze d.Text).2, d.ID⟩ s.docs,
        extIDs := aset d.ID s.idx.total s.extIDs,
        idx := (s.idx.addTrigrams (analyze d.Text).1).1 } := by
  unfold applyDoc
  rw [h]
  rfl

/-- `applyDoc` on a document whose external id is mapped to `d0`. -/
theorem applyDoc_eq_some {s : Service} {d : Doc} {d0 : Nat}
    (h : alookup d.ID s.extIDs = some d0) :
    applyDoc s d =
      { docs := aset s.idx.total ⟨(analyze d.Text).2, d.ID⟩ (aerase d0 s.docs),
        extIDs := aset d.ID s.idx.total s.extIDs,
        idx := ((((analyze d.PriorText).2).foldl (fun ix w => ix.deleteWord w d0)
                  s.idx).addTrigrams (analyze d.Text).1).1 } := by
  unfold applyDoc
  rw [h]
  dsimp only
  simp only [addTrigrams_snd, foldl_deleteWord_total]

theorem applyDoc_total (s : Service) (d : Doc) :
    (applyDoc s d).idx.total = s.idx.total + 1 := by
  cases h : alookup d.ID s.extIDs with
  | none => rw [applyDoc_eq_none h]; rfl
  | some d0 =>
    rw [applyDoc_eq_some h]
    simp only [addTrigrams_total, foldl_deleteWord_total]

/-- The identity map after one mutation-loop iteration: the processed
document's external id maps to the fresh internal id, other external ids are
untouched. -/
theorem applyDoc_ext (s : Service) (d : Doc) :
    alookup d.ID (applyDoc s d).extIDs = some s.idx.total ∧
    ∀ e, e ≠ d.ID → alookup e (applyDoc s d).extIDs = alookup e s.extIDs := by
  cases h : alookup d.ID s.extIDs with
  | none =>
    rw [applyDoc_eq_none h]
    exact ⟨alookup_aset_self _ _ _, fun e he => alookup_aset_ne _ _ _ he _⟩
  | some d0 =>
    rw [applyDoc_eq_some h]
    exact ⟨alookup_aset_self _ _ _, fun e he => alookup_aset_ne _ _ _ he _⟩

theorem inv_applyDoc {s : Service} (hInv : Inv s) (d : Doc) : Inv (applyDoc s d) := by
  cases h : alookup d.ID s.extIDs with
  | none =>
    rw [applyDoc_eq_none h]
    have hfresh : s.idx.total ∉ s.docs.map Prod.fst := fun hm =>
      absurd (hInv.docsLt _ hm) (by omega)
    have hdid : d.ID ∉ s.extIDs.map Prod.fst := fun hm => by
      have := alookup_isSome_of_mem hm
      rw [h] at this
      cases this
    constructor
    · rw [keys_aset_of_not_mem _ _ _ hfresh]
      exact List.Nodup.append hInv.docsNodup (List.nodup_singleton _)
        (fun a ha hb => by simp only [List.mem_singleton] at hb; subst hb; exact hfresh ha)
    · rw [keys_aset_of_not_mem _ _ _ hdid]
      exact List.Nodup.append hInv.extNodup (List.nodup_singleton _)
        (fun a ha hb => by simp only [List.mem_singleton] at hb; subst hb; exact hdid ha)
    · rw [length_aset_of_not_mem _ _ _ hfresh, length_aset_of_not_mem _ _ _ hdid, hInv.lenEq]
    · intro e dd hl
      by_cases he : e = d.ID
      · subst he
        rw [alookup_aset_self] at hl
        obtain rfl : s.idx.total = dd := by injection hl
        exact ⟨_, alookup_aset_self _ _ _, rfl⟩
      · rw [alookup_aset_ne _ _ _ he] at hl
        obtain ⟨m, hm, hid⟩ := hInv.extToDocs e dd hl
        have hddlt : dd < s.idx.total := hInv.docsLt dd (alookup_mem_keys hm)
        refine ⟨m, ?_, hid⟩
        rw [alookup_aset_ne _ _ _ (by omega)]
        exact hm
    · intro dd m hl
      by_cases hdd : dd = s.idx.total
      · subst hdd
        rw [alookup_aset_self] at hl
        have hm : (⟨(analyze d.Text).2, d.ID⟩ : Meta) = m := by injection hl
        rw [← hm]
        exact alookup_aset_self _ _ _
      · rw [alookup_aset_ne _ _ _ hdd] at hl
        have hext := hInv.docsToExt dd m hl
        have hmid : m.id ≠ d.ID := fun heq => by
          rw [heq, h] at hext
          cases hext
        rw [alookup_aset_ne _ _ _ hmid]
        exact hext
    · intro dd hm
      rw [keys_aset_of_not_mem _ _ _ hfresh] at hm
      show dd < (s.idx.addTrigrams (analyze d.Text).1).1.total
      rw [addTrigrams_total]
      rcases List.mem_append.1 hm with hm | hm
      · have := hInv.docsLt dd hm
        omega
      · simp only [List.mem_singleton] at hm
        omega
  | some d0 =>
    rw [applyDoc_eq_some h]
    obtain ⟨m0, hm0, hm0id⟩ := hInv.extToDocs d.ID d0 h
    have hd0mem : d0 ∈ s.docs.map Prod.fst := alookup_mem_keys hm0
    have hd0lt : d0 < s.idx.total := hInv.docsLt d0 hd0mem
    have hfresh : s.idx.total ∉ (aerase d0 s.docs).map Prod.fst := fun hm => by
      rw [keys_aerase] at hm
      exact absurd (hInv.docsLt _ (List.mem_of_mem_erase hm)) (by omega)
    have hdidmem : d.ID ∈ s.extIDs.map Prod.fst := alookup_mem_keys h
    have heraseNodup : ((aerase d0 s.docs).map Prod.fst).Nodup := by
      rw [keys_aerase]
      exact hInv.docsNodup.erase d0
    constructor
    · rw [keys_aset_of_not_mem _ _ _ hfresh]
      exact List.Nodup.append heraseNodup (List.nodup_singleton _)
        (fun a ha hb => by simp only [List.mem_singleton] at hb; subst hb; exact hfresh ha)
    · rw [keys_aset_of_mem _ _ _ hdidmem]
      exact hInv.extNodup
    · rw [length_aset_of_not_mem _ _ _ hfresh, length_aset_of_mem _ _ _ hdidmem,
        ← hInv.lenEq, ← length_aerase_of_mem d0 s.docs hd0mem]
    · intro e dd hl
      by_cases he : e = d.ID
      · subst he
        rw [alookup_aset_self] at hl
        obtain rfl : s.idx.total = dd := by injection hl
        exact ⟨_, alookup_aset_self _ _ _, rfl⟩
      · rw [alookup_aset_ne _ _ _ he] at hl
        obtain ⟨m, hm, hid⟩ := hInv.extToDocs e dd hl
        have hddlt : dd < s.idx.total := hInv.docsLt dd (alookup_mem_keys hm)
        have hddne0 : dd ≠ d0 := by
          intro heq
          subst heq
          have hmeq : m0 = m := by
            rw [hm0] at hm
            injection hm
          subst hmeq
          exact he (by rw [← hid, hm0id])
        refine ⟨m, ?_, hid⟩
        rw [alookup_aset_ne _ _ _ (by omega), alookup_aerase_ne _ _ hddne0]
        exact hm
    · intro dd m hl
      by_cases hdd : dd = s.idx.total
      · subst hdd
        rw [alookup_aset_self] at hl
        have hm : (⟨(analyze d.Text).2, d.ID⟩ : Meta) = m := by injection hl
        rw [← hm]
        exact alookup_aset_self _ _ _
      · rw [alookup_aset_ne _ _ _ hdd] at hl
        have hddne0 : dd ≠ d0 := by
          intro heq
          subst heq
          rw [alookup_aerase_self _ _ hInv.docsNodup] at hl
          cases hl
        rw [alookup_aerase_ne _ _ hddne0] at hl
        have hext := hInv.docsToExt dd m hl
        have hmid : m.id ≠ d.ID := fun heq => by
          rw [heq, h] at hext
          injection hext with hv
          exact hddne0 hv.symm
        rw [alookup_aset_ne _ _ _ hmid]
        exact hext
    · intro dd hm
      rw [keys_aset_of_not_mem _ _ _ hfresh, keys_aerase] at hm
      show dd < ((((analyze d.PriorText).2).foldl (fun ix w => ix.deleteWord w d0)
                  s.idx).addTrigrams (analyze d.Text).1).1.total
      rw [addTrigrams_total, foldl_deleteWord_total]
      rcases List.mem_append.1 hm with hm | hm
      · have := hInv.docsLt dd (List.mem_of_mem_erase hm)
        omega
      · simp only [List.mem_singleton] at hm
        omega

theorem inv_prune {s : Service} (h : Inv s) : Inv { s with idx := s.idx.prune } :=
  ⟨h.docsNodup, h.extNodup, h.lenEq, h.extToDocs, h.docsToExt,
   fun d hm => by rw [prune_total]; exact h.docsLt d hm⟩

theorem inv_foldl {s : Service} (h : Inv s) (ds : List Doc) : Inv (ds.foldl applyDoc s) := by
  induction ds generalizing s with
  | nil => exact h
  | cons d t ih => exact ih (inv_applyDoc h d)

/-- The reachable service states, together with the external ids of all
documents ever successfully upserted (batch by batch, in order). -/
inductive ReachableH : Service → List Nat → Prop
  | init : ReachableH Service.empty []
  | step (s : Service) (ids : List Nat) (ds : List Doc) (s' : Service) :
      ReachableH s ids → upsertRun s ds = (s', none) →
      ReachableH s' (ids ++ ds.map Doc.ID)

/-- A service state reachable by some sequence of successful `Upsert`
batches from a fresh service. -/
def Reachable (s : Service) : Prop := ∃ ids, ReachableH s ids

theorem upsertRun_ok_state {s : Service} {ds : List Doc} {s' : Service}
    (h : upsertRun s ds = (s', none)) :
    s' = { ds.foldl applyDoc s with idx := (ds.foldl applyDoc s).idx.prune } := by
  unfold upsertRun at h
  cases hv : validate s.extIDs ds 0 with
  | some e =>
    rw [hv] at h
    simp only [Prod.mk.injEq] at h
    cases h.2
  | none =>
    rw [hv] at h
    simp only [Prod.mk.injEq] at h
    exact h.1.symm

theorem inv_reachable {s : Service} {ids : List Nat} (h : ReachableH s ids) : Inv s := by
  induction h with
  | init => exact inv_empty
  | step s ids ds s' _ hok ih =>
    rw [upsertRun_ok_state hok]
    exact inv_prune (inv_foldl ih ds)

theorem alookup_isSome_iff_mem {α β : Type} [DecidableEq α] {k : α} {l : List (α × β)} :
    (alookup k l).isSome ↔ k ∈ l.map Prod.fst := by
  constructor
  · intro h
    cases hl : alookup k l with
    | none => rw [hl] at h; cases h
    | some v => exact alookup_mem_keys hl
  · exact alookup_isSome_of_mem

theorem foldl_ext_isSome (ds : List Doc) :
    ∀ (s : Service) (e : Nat),
      (alookup e (ds.foldl applyDoc s).extIDs).isSome ↔
        ((alookup e s.extIDs).isSome ∨ e ∈ ds.map Doc.ID) := by
  induction ds with
  | nil => intro s e; simp
  | cons d t ih =>
    intro s e
    simp only [List.foldl_cons, List.map_cons, List.mem_cons]
    rw [ih]
    by_cases he : e = d.ID
    · subst he
      rw [(applyDoc_ext s d).1]
      simp
    · rw [(applyDoc_ext s d).2 e he]
      simp [he]

theorem reachable_ext_iff_hist {s : Service} {ids : List Nat} (h : ReachableH s ids) :
    ∀ e, (alookup e s.extIDs).isSome ↔ e ∈ ids := by
  induction h with
  | init => intro e; simp [Service.empty, alookup]
  | step s ids ds s' _ hok ih =>
    intro e
    rw [upsertRun_ok_state hok]
    simp only [List.mem_append]
    rw [show ({ ds.foldl applyDoc s with idx := (ds.foldl applyDoc s).idx.prune } :
        Service).extIDs = (ds.foldl applyDoc s).extIDs from rfl]
    rw [foldl_ext_isSome, ih]

theorem searchLoop_results_eq (svc : Service) (ctx : Nat → Bool) (ws : List (List Nat)) :
    ∀ (cands : List Nat) (i : Nat) (acc r : List Nat),
      searchLoop svc ctx ws cands i acc = .results r →
      r = acc ++ cands.filterMap (fun d =>
        match alookup d svc.docs with
        | none => none
        | some m => if ws.all (fun w => saLookup (buildSaText m.saWords) w) then some m.id else none) := by
  intro cands
  induction cands with
  | nil =>
    intro i acc r h
    simp only [searchLoop, SearchOutcome.results.injEq] at h
    simp [← h]
  | cons d ds ih =>
    intro i acc r h
    simp only [searchLoop] at h
    split at h
    · cases h
    · simp only [List.filterMap_cons]
      cases hl : alookup d svc.docs with
      | none =>
        rw [hl] at h
        exact ih _ _ _ h
      | some m =>
        rw [hl] at h
        dsimp only at h ⊢
        by_cases hv : ws.all (fun w => saLookup (buildSaText m.saWords) w)
        · rw [if_pos hv] at h
          rw [if_pos hv]
          have := ih _ _ _ h
          simpa using this
        · rw [if_neg hv] at h
          rw [if_neg hv]
          exact ih _ _ _ h

theorem queryTrigrams_nodup (ix : TrigramIndex) (ts : List Gram) :
    (ix.queryTrigrams ts).Nodup := by
  unfold TrigramIndex.queryTrigrams
  split
  · exact List.nodup_nil
  · exact (List.nodup_range _).filter _

/-- Any result list of a search against a state satisfying the bookkeeping
invariant has no duplicate external ids. -/
theorem search_results_nodup {s : Service} (hInv : Inv s) (ctx : Nat → Bool)
    (q : List Nat) (r : List Nat) (h : search s ctx q = .results r) : r.Nodup := by
  simp only [search] at h
  split at h
  · cases h
  · have := searchLoop_results_eq s ctx _ _ _ _ _ h
    rw [this]
    simp only [List.nil_append]
    refine List.Nodup.filterMap ?_ (queryTrigrams_nodup _ _)
    intro d d' idv hd hd'
    cases hld : alookup d s.docs with
    | none => rw [hld] at hd; cases hd
    | some m =>
      cases hld' : alookup d' s.docs with
      | none => rw [hld'] at hd'; cases hd'
      | some m' =>
        rw [hld] at hd
        rw [hld'] at hd'
        dsimp only at hd hd'
        split at hd
        · split at hd'
          · have hm : m.id = idv := by injection hd
            have hm' : m'.id = idv := by injection hd'
            have h1 := hInv.docsToExt d m hld
            have h2 := hInv.docsToExt d' m' hld'
            rw [hm] at h1
            rw [hm'] at h2
            rw [h1] at h2
            injection h2
          · cases hd'
        · cases hd

/-! ### Claim C10 -/

/-- C10: after every sequence of successful upserts from a fresh service, the
metadata map and the identity map are in bijection — equal sizes, each
identity entry points at a metadata entry carrying its external id, each
metadata entry is pointed at by exactly its own external id — `DocCount`
equals the number of distinct external ids ever upserted, and no search
result list repeats an external id. -/
theorem C10_docs_ext_bijection (s : Service) (ids : List Nat) (h : ReachableH s ids) :
    s.docs.length = s.extIDs.length ∧
    (∀ e d, alookup e s.extIDs = some d → ∃ m, alookup d s.docs = some m ∧ m.id = e) ∧
    (∀ d m, alookup d s.docs = some m → alookup m.id s.extIDs = some d) ∧
    (∀ d m e, alookup d s.docs = some m → alookup e s.extIDs = some d → e = m.id) ∧
    s.docCount = ids.dedup.length ∧
    (∀ ctx q r, search s ctx q = .results r → r.Nodup) := by
  have hInv := inv_reachable h
  refine ⟨hInv.lenEq, hInv.extToDocs, hInv.docsToExt, ?_, ?_, ?_⟩
  · intro d m e hd he
    obtain ⟨m', hm', hid⟩ := hInv.extToDocs e d he
    rw [hd] at hm'
    have : m = m' := by injection hm'
    rw [this, hid]
  · have hkeys : (s.extIDs.map Prod.fst).Perm ids.dedup := by
      refine (List.perm_ext_iff_of_nodup hInv.extNodup ids.nodup_dedup).2 ?_
      intro e
      rw [← alookup_isSome_iff_mem, List.mem_dedup]
      exact reachable_ext_iff_hist h e
    have hlen := hkeys.length_eq
    rw [List.length_map] at hlen
    rw [Service.docCount, hInv.lenEq, hlen]
  · intro ctx q r hr
    exact search_results_nodup hInv ctx q r hr

/-- Witness for C10 at a concrete input: the three-document test service has
equal-size maps and three live documents for the three distinct ids ever
upserted. -/
theorem C10_docs_ext_bijection_witness :
    svc3.docs.length = svc3.extIDs.length ∧ svc3.docCount = 3 := by
  have hist : ReachableH svc3 ([] ++ ([docOne, docTwo, docThree].map Doc.ID)) :=
    ReachableH.step _ _ _ _ ReachableH.init (by decide)
  have h := C10_docs_ext_bijection svc3 _ hist
  refine ⟨h.1, ?_⟩
  rw [h.2.2.2.2.1]
  decide

/-! ### Tokens and the delimited verifier text -/

/-- The bytes that can occur in an emitted token: lowercase ASCII letters
and digits. -/
def tokByte (b : Nat) : Prop := (97 ≤ b ∧ b ≤ 122) ∨ (48 ≤ b ∧ b ≤ 57)

instance (b : Nat) : Decidable (tokByte b) := by
  unfold tokByte
  infer_instance

theorem tokByte_lower_of_isAlnum {b : Nat} (h : isAlnum b = true) : tokByte (lower b) := by
  rw [isAlnum_true_iff] at h
  unfold lower tokByte
  split_ifs <;> omega

theorem isAlnum_of_tokByte {b : Nat} (h : tokByte b) : isAlnum b = true := by
  rw [isAlnum_true_iff]
  unfold tokByte at h
  omega

theorem lower_eq_self_of_tokByte {b : Nat} (h : tokByte b) : lower b = b := by
  unfold tokByte at h
  unfold lower
  split_ifs <;> omega

theorem replaceByte_eq_self_of_tokByte {b : Nat} (h : tokByte b) : replaceByte b = b := by
  unfold tokByte at h
  unfold replaceByte
  split_ifs <;> omega

theorem tokenizeAux_wf :
    ∀ (l run : List Nat), (∀ b ∈ run, isAlnum b = true) →
      ∀ t ∈ tokenizeAux l run, t ≠ [] ∧ ∀ b ∈ t, tokByte b := by
  intro l
  induction l with
  | nil =>
    intro run hrun t ht
    simp only [tokenizeAux] at ht
    split at ht
    · simp at ht
    · rename_i hne
      simp only [List.mem_singleton] at ht
      subst ht
      constructor
      · intro habs
        rw [List.map_eq_nil_iff, List.reverse_eq_nil_iff] at habs
        rw [habs] at hne
        simp at hne
      · intro b hb
        rw [List.mem_map] at hb
        obtain ⟨b', hb', rfl⟩ := hb
        exact tokByte_lower_of_isAlnum (hrun b' (List.mem_reverse.1 hb'))
  | cons c cs ih =>
    intro run hrun t ht
    simp only [tokenizeAux] at ht
    by_cases hc : isAlnum c = true
    · rw [if_pos hc] at ht
      refine ih (c :: run) ?_ t ht
      intro b hb
      rcases List.mem_cons.1 hb with rfl | hb
      · exact hc
      · exact hrun b hb
    · rw [if_neg hc] at ht
      split at ht
      · exact ih [] (by simp) t ht
      · rename_i hne
        rcases List.mem_cons.1 ht with rfl | ht'
        · constructor
          · intro habs
            rw [List.map_eq_nil_iff, List.reverse_eq_nil_iff] at habs
            rw [habs] at hne
            simp at hne
          · intro b hb
            rw [List.mem_map] at hb
            obtain ⟨b', hb', rfl⟩ := hb
            exact tokByte_lower_of_isAlnum (hrun b' (List.mem_reverse.1 hb'))
        · exact ih [] (by simp) t ht'

/-- Every token emitted by the tokenizer is non-empty and consists of token
bytes (lowercase letters and digits). -/
theorem tokenize_wf (l : List Nat) :
    ∀ t ∈ tokenize l, t ≠ [] ∧ ∀ b ∈ t, tokByte b :=
  tokenizeAux_wf l [] (by simp)

theorem tokenizeAux_all_alnum :
    ∀ (t run : List Nat), (∀ b ∈ t, isAlnum b = true) →
      (run.isEmpty = false ∨ t ≠ []) →
      tokenizeAux t run = [(run.reverse ++ t).map lower] := by
  intro t
  induction t with
  | nil =>
    intro run _ hne
    rcases hne with hne | hne
    · simp [tokenizeAux, hne]
    · exact absurd rfl hne
  | cons b bs ih =>
    intro run hal _
    have hb : isAlnum b = true := hal b (List.mem_cons_self _ _)
    simp only [tokenizeAux, if_pos hb]
    rw [ih (b :: run) (fun x hx => hal x (List.mem_cons_of_mem _ hx)) (Or.inl rfl)]
    simp

/-- A non-empty string of token bytes tokenizes to exactly itself. -/
theorem tokenize_of_tokByte {t : List Nat} (hne : t ≠ []) (h : ∀ b ∈ t, tokByte b) :
    tokenize t = [t] := by
  unfold tokenize
  rw [tokenizeAux_all_alnum t [] (fun b hb => isAlnum_of_tokByte (h b hb)) (Or.inr hne)]
  congr 1
  simp only [List.reverse_nil, List.nil_append]
  rw [List.map_congr_left (fun b hb => lower_eq_self_of_tokByte (h b hb))]
  exact List.map_id _

theorem replaceAll_of_tokByte {t : List Nat} (h : ∀ b ∈ t, tokByte b) :
    replaceAll t = t := by
  unfold replaceAll
  rw [List.map_congr_left (fun b hb => replaceByte_eq_self_of_tokByte (h b hb))]
  exact List.map_id _

/-- A single non-empty token-byte term analyzes to the one marker-prefixed
word, with at least one gram. -/
theorem analyze_single_tok {t : List Nat} (hne : t ≠ []) (h : ∀ b ∈ t, tokByte b) :
    analyze t = (extract (underscore :: t) [], [underscore :: t]) := by
  unfold analyze analyzeWords
  rw [replaceAll_of_tokByte h, tokenize_of_tokByte hne h]
  simp

/-! ### Structure of the delimited text -/

theorem foldl_sa_acc :
    ∀ (ws : List (List Nat)) (acc : List Nat),
      ws.foldl (fun b w => b ++ saDelim :: w) acc =
        acc ++ ws.foldl (fun b w => b ++ saDelim :: w) [] := by
  intro ws
  induction ws with
  | nil => intro acc; simp
  | cons w t ih =>
    intro acc
    simp only [List.foldl_cons]
    rw [ih (acc ++ saDelim :: w), ih ([] ++ saDelim :: w)]
    simp

theorem buildSaText_nil : buildSaText [] = [saDelim] := rfl

theorem buildSaText_cons (w : List Nat) (ws : List (List Nat)) :
    buildSaText (w :: ws) = saDelim :: (w ++ buildSaText ws) := by
  unfold buildSaText
  simp only [List.foldl_cons]
  rw [foldl_sa_acc ws ([] ++ saDelim :: w)]
  simp

theorem buildSaText_head (ws : List (List Nat)) :
    ∃ r, buildSaText ws = saDelim :: r := by
  cases ws with
  | nil => exact ⟨[], rfl⟩
  | cons w t => exact ⟨_, buildSaText_cons w t⟩

/-- A marker-prefixed prefix of an indexed token occurs in the delimited
text (soundness of the verifier for true prefixes). -/
theorem word_infix_of_tok_pfx {t tok : List Nat} {toks : List (List Nat)}
    (htok : tok ∈ toks) (hp : t <+: tok) :
    (underscore :: t) <:+: buildSaText (toks.map (fun x => underscore :: x)) := by
  induction toks with
  | nil => cases htok
  | cons tk tks ih =>
    rw [List.map_cons, buildSaText_cons]
    rcases List.mem_cons.1 htok with rfl | hmem
    · refine List.infix_cons (List.IsPrefix.isInfix ?_)
      rw [List.cons_append]
      rw [List.cons_prefix_cons]
      exact ⟨rfl, hp.trans (List.prefix_append _ _)⟩
    · refine List.infix_cons ((ih hmem).trans (List.IsSuffix.isInfix ?_))
      exact List.suffix_append _ _

/-- A marker-prefixed occurrence in the delimited text starts a token: the
pattern body is a prefix of some indexed token (completeness of the
verifier — no match across word boundaries). -/
theorem tok_pfx_of_word_occ :
    ∀ (toks : List (List Nat)), (∀ tk ∈ toks, ∀ b ∈ tk, tokByte b) →
      ∀ (t : List Nat), t ≠ [] → (∀ b ∈ t, tokByte b) →
        (underscore :: t) <:+: buildSaText (toks.map (fun x => underscore :: x)) →
        ∃ tok ∈ toks, t <+: tok := by
  intro toks
  induction toks with
  | nil =>
    intro _ t ht _ hinf
    exfalso
    have hlen := hinf.length_le
    rw [List.map_nil, buildSaText_nil] at hlen
    simp only [List.length_cons, List.length_nil] at hlen
    exact ht (List.length_eq_zero.1 (by omega))
  | cons tk tks ih =>
    intro hwf t ht htb hinf
    rw [List.map_cons, buildSaText_cons] at hinf
    rcases List.infix_cons_iff.1 hinf with hpre | hinf2
    · rw [List.cons_prefix_cons] at hpre
      exact absurd hpre.1 (by unfold underscore saDelim; omega)
    · rw [List.cons_append] at hinf2
      rcases List.infix_cons_iff.1 hinf2 with hpre | hinf3
      · rw [List.cons_prefix_cons] at hpre
        have hpt : t <+: tk ++ buildSaText (tks.map (fun x => underscore :: x)) := hpre.2
        by_cases hlen : t.length ≤ tk.length
        · exact ⟨tk, List.mem_cons_self _ _,
            List.prefix_of_prefix_length_le hpt (List.prefix_append _ _) hlen⟩
        · exfalso
          push_neg at hlen
          have hbound : tk.length < t.length := hlen
          obtain ⟨w, hw⟩ := hpt
          have e := congrArg (fun l : List Nat => l[tk.length]?) hw
          simp only at e
          rw [List.getElem?_append, List.getElem?_append, if_pos hbound,
            if_neg (lt_irrefl _), Nat.sub_self] at e
          obtain ⟨r, hr⟩ := buildSaText_head (tks.map (fun x => underscore :: x))
          rw [hr] at e
          simp only [List.getElem?_cons_zero] at e
          have hmem : saDelim ∈ t := List.getElem?_mem e
          have := htb saDelim hmem
          unfold tokByte saDelim at this
          omega
      · obtain ⟨s, u, hsu⟩ := hinf3
        by_cases hs : s.length < tk.length
        · exfalso
          have e := congrArg (fun l : List Nat => l[s.length]?) hsu
          simp only at e
          rw [List.append_assoc, List.cons_append] at e
          rw [List.getElem?_append, List.getElem?_append, if_neg (lt_irrefl _),
            if_pos hs, Nat.sub_self] at e
          simp only [List.getElem?_cons_zero] at e
          have hmem : underscore ∈ tk := List.getElem?_mem e.symm
          have := hwf tk (List.mem_cons_self _ _) underscore hmem
          unfold tokByte underscore at this
          omega
        · push_neg at hs
          have hspre : s <+: tk ++ buildSaText (tks.map (fun x => underscore :: x)) :=
            ⟨(underscore :: t) ++ u, by rw [← List.append_assoc, hsu]⟩
          have htks : tk <+: s :=
            List.prefix_of_prefix_length_le (List.prefix_append _ _) hspre hs
          obtain ⟨s', rfl⟩ := htks
          have hT : s' ++ (underscore :: t) ++ u =
              buildSaText (tks.map (fun x => underscore :: x)) := by
            refine @List.append_cancel_left _ tk _ _ ?_
            rw [← hsu]
            simp [List.append_assoc]
          obtain ⟨tok, hmem, hpfx⟩ :=
            ih (fun tk' h' => hwf tk' (List.mem_cons_of_mem _ h')) t ht htb ⟨s', u, hT⟩
          exact ⟨tok, List.mem_cons_of_mem _ hmem, hpfx⟩

/-- The suffix-array check on the delimited text of well-formed tokens holds
exactly when the query term is a prefix of some indexed token. -/
theorem saLookup_word_iff {toks : List (List Nat)}
    (hwf : ∀ tk ∈ toks, ∀ b ∈ tk, tokByte b)
    {t : List Nat} (ht : t ≠ []) (htb : ∀ b ∈ t, tokByte b) :
    saLookup (buildSaText (toks.map (fun x => underscore :: x))) (underscore :: t) = true ↔
      ∃ tok ∈ toks, t <+: tok := by
  unfold saLookup
  rw [decide_eq_true_eq]
  exact ⟨tok_pfx_of_word_occ toks hwf t ht htb,
    fun ⟨tok, hm, hp⟩ => word_infix_of_tok_pfx hm hp⟩

/-! ### Structure of search results -/

/-- Every query word is the marker followed by a non-empty token of token
bytes. -/
theorem analyze_words_wf (q : List Nat) :
    ∀ w ∈ (analyze q).2, ∃ tok, w = underscore :: tok ∧ tok ≠ [] ∧ ∀ b ∈ tok, tokByte b := by
  intro w hw
  simp only [analyze, analyzeWords] at hw
  rw [List.mem_map] at hw
  obtain ⟨tok, htok, rfl⟩ := hw
  obtain ⟨hne, hb⟩ := tokenize_wf _ tok htok
  exact ⟨tok, rfl, hne, hb⟩

theorem analyze_grams_ne_words_ne {q : List Nat} (h : (analyze q).1 ≠ []) :
    (analyze q).2 ≠ [] := by
  intro habs
  simp only [analyze] at h habs
  rw [habs] at h
  exact h rfl

/-- An external id in a result list comes from a live metadata entry whose
delimited text passes every query word's suffix-array check. -/
theorem search_results_mem {s : Service} {ctx : Nat → Bool} {q r : List Nat}
    (h : search s ctx q = .results r) {e : Nat} (he : e ∈ r) :
    (analyze q).1 ≠ [] ∧
      ∃ dd m, alookup dd s.docs = some m ∧ m.id = e ∧
        ((analyze q).2).all (fun w => saLookup (buildSaText m.saWords) w) = true := by
  simp only [search] at h
  split at h
  · cases h
  · rename_i hne
    refine ⟨by simpa [List.isEmpty_iff] using hne, ?_⟩
    have hr := searchLoop_results_eq s ctx _ _ _ _ _ h
    rw [hr, List.nil_append] at he
    rw [List.mem_filterMap] at he
    obtain ⟨dd, _, hf⟩ := he
    cases hl : alookup dd s.docs with
    | none => rw [hl] at hf; cases hf
    | some m =>
      rw [hl] at hf
      dsimp only at hf
      split at hf
      · rename_i hall
        have : m.id = e := by injection hf
        exact ⟨dd, m, hl, this, hall⟩
      · cases hf

/-- A metadata entry over the empty word list (delimiter-only text) never
passes verification for a query with at least one gram. -/
theorem empty_saText_never_matches {q : List Nat} (hq : (analyze q).1 ≠ []) :
    ¬ ((analyze q).2).all (fun w => saLookup [saDelim] w) = true := by
  intro hall
  have hwne := analyze_grams_ne_words_ne hq
  cases hws : (analyze q).2 with
  | nil => exact hwne hws
  | cons w ws =>
    have hw := List.all_eq_true.1 hall w (by rw [hws]; exact List.mem_cons_self _ _)
    obtain ⟨tok, rfl, htokne, _⟩ := analyze_words_wf q w (by rw [hws]; exact List.mem_cons_self _ _)
    unfold saLookup at hw
    rw [decide_eq_true_eq] at hw
    have hlen := hw.length_le
    simp only [List.length_cons, List.length_singleton] at hlen
    cases tok with
    | nil => exact htokne rfl
    | cons b bs => simp at hlen

theorem applyDoc_docs_fresh (s : Service) (d : Doc) :
    alookup s.idx.total (applyDoc s d).docs =
      some ⟨(analyze d.Text).2, d.ID⟩ := by
  cases h : alookup d.ID s.extIDs with
  | none => rw [applyDoc_eq_none h]; exact alookup_aset_self _ _ _
  | some d0 => rw [applyDoc_eq_some h]; exact alookup_aset_self _ _ _

/-! ### Claim C9 (amended) -/

/-- C9 amended: an empty-text upsert of a non-zero external id succeeds
whenever the id is unindexed or its `PriorText` is non-empty (the correct
prior text, being empty when the previously indexed text was empty, would be
rejected), and afterwards no search returns that external id. -/
theorem C9_empty_text_upsert (s : Service) (hs : Reachable s) (d : Doc)
    (hid : d.ID ≠ 0) (htext : d.Text = [])
    (hprior : (alookup d.ID s.extIDs).isSome = true → d.PriorText ≠ []) :
    ∃ s', upsertRun s [d] = (s', none) ∧
      ∀ ctx q r, search s' ctx q = .results r → d.ID ∉ r := by
  obtain ⟨ids, hh⟩ := hs
  have hInv := inv_reachable hh
  have hval : validate s.extIDs [d] 0 = none := by
    refine validate_none s.extIDs [d] 0 ?_
    intro d' hd'
    rw [List.mem_singleton] at hd'
    subst hd'
    rintro (h0 | ⟨hsome, hpe⟩)
    · exact hid h0
    · exact hprior hsome hpe
  refine ⟨{ applyDoc s d with idx := (applyDoc s d).idx.prune }, ?_, ?_⟩
  · unfold upsertRun
    rw [hval]
    rfl
  · intro ctx q r hsr hmem
    set s' : Service := { applyDoc s d with idx := (applyDoc s d).idx.prune } with hs'
    have hInv' : Inv s' := inv_prune (inv_applyDoc hInv d)
    obtain ⟨hq, dd, m, hlook, hmid, hall⟩ := search_results_mem hsr hmem
    have hext : alookup m.id s'.extIDs = alookup m.id (applyDoc s d).extIDs := rfl
    have hd1 : alookup d.ID (applyDoc s d).extIDs = some s.idx.total := (applyDoc_ext s d).1
    have hdd : dd = s.idx.total := by
      have := hInv'.docsToExt dd m hlook
      rw [hext, hmid, hd1] at this
      injection this with hv
      exact hv.symm
    subst hdd
    have hdocs : alookup s.idx.total s'.docs =
        some ⟨(analyze d.Text).2, d.ID⟩ := applyDoc_docs_fresh s d
    rw [hdocs] at hlook
    have hmeq : m = ⟨(analyze d.Text).2, d.ID⟩ := by
      injection hlook with hv
      exact hv.symm
    rw [hmeq] at hall
    rw [htext] at hall
    have hall' : ((analyze q).2).all (fun w => saLookup [saDelim] w) = true := hall
    exact empty_saText_never_matches hq hall'

/-- Witness for C9 at a concrete input: deleting a document that currently
has non-empty text by upserting empty text succeeds, and a search that
previously found it no longer returns it. -/
theorem C9_empty_text_upsert_witness :
    ∃ s', upsertRun svcFox [⟨1, [], bytes "fox"⟩] = (s', none) ∧
      ∀ ctx q r, search s' ctx q = .results r → 1 ∉ r := by
  refine C9_empty_text_upsert svcFox ?_ ⟨1, [], bytes "fox"⟩ (by decide) rfl (by decide)
  exact ⟨[] ++ [(⟨1, bytes "fox", []⟩ : Doc)].map Doc.ID,
    ReachableH.step _ _ _ _ ReachableH.init (by decide)⟩

/-! ### Posting-index lemmas -/

/-- Every posting entry is pruned. -/
def AllNoneP (ps : List (Gram × Option (List Nat))) : Prop :=
  ∀ g v, alookup g ps = some v → v = none

/-- Every active posting list is non-empty. -/
def NonemptyActives (ps : List (Gram × Option (List Nat))) : Prop :=
  ∀ g l, alookup g ps = some (some l) → l ≠ []

theorem allNoneP_nonemptyActives {ps : List (Gram × Option (List Nat))}
    (h : AllNoneP ps) : NonemptyActives ps := by
  intro g l hl
  have := h g (some l) hl
  cases this

theorem alookup_append {α β : Type} [DecidableEq α] (k : α) :
    ∀ l1 l2 : List (α × β), alookup k (l1 ++ l2) =
      match alookup k l1 with
      | some v => some v
      | none => alookup k l2 := by
  intro l1 l2
  induction l1 with
  | nil => rfl
  | cons p t ih =>
    by_cases hk : k = p.1
    · simp [alookup, hk]
    · simp only [List.cons_append, alookup, if_neg hk]
      exact ih

theorem alookup_prune (ix : TrigramIndex) (g : Gram) :
    alookup g ix.prune.postings =
      (alookup g ix.postings).map (fun v =>
        match v with
        | some l => if 10 * l.length > ix.total then none else some l
        | none => none) := by
  show alookup g (ix.postings.map _) = _
  induction ix.postings with
  | nil => simp [alookup]
  | cons p t ih =>
    by_cases hk : g = p.1
    · simp [alookup, hk]
    · simp only [List.map_cons, alookup, if_neg hk]
      exact ih

theorem prune_isSome (ix : TrigramIndex) (g : Gram)
    (h : (alookup g ix.postings).isSome) : (alookup g ix.prune.postings).isSome := by
  rw [alookup_prune]
  cases hv : alookup g ix.postings with
  | none => rw [hv] at h; cases h
  | some v => simp

theorem allNoneP_prune {ix : TrigramIndex} (h : NonemptyActives ix.postings)
    (hle : ix.total ≤ 9) : AllNoneP ix.prune.postings := by
  intro g v hl
  rw [alookup_prune] at hl
  cases hv : alookup g ix.postings with
  | none => rw [hv] at hl; cases hl
  | some v' =>
    rw [hv] at hl
    cases v' with
    | none =>
      simp only [Option.map] at hl
      injection hl with hv'
      exact hv'.symm
    | some l =>
      simp only [Option.map] at hl
      have hlne : l ≠ [] := h g l hv
      have hlen : 1 ≤ l.length := by
        cases l with
        | nil => exact absurd rfl hlne
        | cons a t => simp
      rw [if_pos (by omega)] at hl
      injection hl with hv'
      exact hv'.symm

theorem alookup_insertPosting_ne (g g' : Gram) (id : Nat)
    (ps : List (Gram × Option (List Nat))) (hne : g' ≠ g) :
    alookup g' (insertPosting g id ps) = alookup g' ps := by
  unfold insertPosting
  cases hl : alookup g ps with
  | none =>
    rw [alookup_append]
    cases hl' : alookup g' ps with
    | none => simp [alookup, hne]
    | some v => rfl
  | some v =>
    cases v with
    | none => rfl
    | some l => exact alookup_aset_ne _ _ _ hne _

theorem alookup_insertPosting_self (g : Gram) (id : Nat)
    (ps : List (Gram × Option (List Nat))) :
    alookup g (insertPosting g id ps) =
      some (match alookup g ps with
            | none => some [id]
            | some none => none
            | some (some l) => some (l ++ [id])) := by
  unfold insertPosting
  cases hl : alookup g ps with
  | none =>
    rw [alookup_append, hl]
    simp [alookup]
  | some v =>
    cases v with
    | none => exact hl
    | some l => exact alookup_aset_self _ _ _

theorem insertPosting_nonemptyActives {ps : List (Gram × Option (List Nat))}
    (h : NonemptyActives ps) (g : Gram) (id : Nat) :
    NonemptyActives (insertPosting g id ps) := by
  intro g' l hl
  by_cases hg : g' = g
  · subst hg
    rw [alookup_insertPosting_self] at hl
    injection hl with hv
    cases hll : alookup g' ps with
    | none =>
      rw [hll] at hv
      injection hv with hv'
      rw [← hv']
      simp
    | some v =>
      cases v with
      | none =>
        rw [hll] at hv
        cases hv
      | some l0 =>
        rw [hll] at hv
        injection hv with hv'
        rw [← hv']
        simp
  · rw [alookup_insertPosting_ne _ _ _ _ hg] at hl
    exact h g' l hl

theorem foldl_insert_nonemptyActives (ts : List Gram) (id : Nat) :
    ∀ ps, NonemptyActives ps →
      NonemptyActives (ts.foldl (fun ps g => insertPosting g id ps) ps) := by
  induction ts with
  | nil => intro ps h; exact h
  | cons g t ih =>
    intro ps h
    exact ih _ (insertPosting_nonemptyActives h g id)

theorem insertPosting_isSome (g g' : Gram) (id : Nat)
    (ps : List (Gram × Option (List Nat))) (h : (alookup g' ps).isSome) :
    (alookup g' (insertPosting g id ps)).isSome := by
  by_cases hg : g' = g
  · subst hg
    rw [alookup_insertPosting_self]
    rfl
  · rw [alookup_insertPosting_ne _ _ _ _ hg]
    exact h

theorem foldl_insert_isSome (ts : List Gram) (id : Nat) :
    ∀ (ps : List (Gram × Option (List Nat))) (g : Gram),
      (g ∈ ts ∨ (alookup g ps).isSome) →
      (alookup g (ts.foldl (fun ps g => insertPosting g id ps) ps)).isSome := by
  induction ts with
  | nil =>
    intro ps g h
    rcases h with h | h
    · cases h
    · exact h
  | cons g0 t ih =>
    intro ps g h
    simp only [List.foldl_cons]
    rcases h with h | h
    · rcases List.mem_cons.1 h with rfl | h'
      · refine ih _ g (Or.inr ?_)
        rw [alookup_insertPosting_self]
        rfl
      · exact ih _ g (Or.inl h')
    · exact ih _ g (Or.inr (insertPosting_isSome g0 g id ps h))

theorem delPosting_allNone {ps : List (Gram × Option (List Nat))}
    (h : AllNoneP ps) (g : Gram) (id : Nat) : delPosting g id ps = ps := by
  unfold delPosting
  cases hl : alookup g ps with
  | none => rfl
  | some v =>
    have := h g v hl
    subst this
    rfl

theorem deleteWord_allNone {ix : TrigramIndex} (h : AllNoneP ix.postings)
    (w : List Nat) (id : Nat) : ix.deleteWord w id = ix := by
  unfold TrigramIndex.deleteWord
  have : (extract w []).foldl (fun ps g => delPosting g id ps) ix.postings = ix.postings := by
    induction (extract w []) with
    | nil => rfl
    | cons g t ih =>
      simp only [List.foldl_cons]
      rw [delPosting_allNone h g id]
      exact ih
  rw [this]

theorem foldl_deleteWord_allNone {ix : TrigramIndex} (h : AllNoneP ix.postings)
    (ws : List (List Nat)) (id : Nat) :
    ws.foldl (fun i w => i.deleteWord w id) ix = ix := by
  induction ws with
  | nil => rfl
  | cons w t ih =>
    simp only [List.foldl_cons]
    rw [deleteWord_allNone h w id]
    exact ih

/-- Under all-pruned postings, candidate retrieval returns every allocated
internal id when all query grams have (pruned) entries, and nothing at all
when some query gram was never indexed. -/
theorem queryTrigrams_allNone {ix : TrigramIndex} (h : AllNoneP ix.postings)
    (ts : List Gram) (hne : ts ≠ []) :
    ix.queryTrigrams ts =
      if ∀ g ∈ ts, (alookup g ix.postings).isSome then List.range ix.total else [] := by
  unfold TrigramIndex.queryTrigrams
  rw [if_neg (by simpa [List.isEmpty_iff] using hne)]
  split
  · rename_i hall
    apply List.filter_eq_self.2
    intro d _
    rw [List.all_eq_true]
    intro g hg
    cases hv : alookup g ix.postings with
    | none =>
      have := hall g hg
      rw [hv] at this
      cases this
    | some v =>
      have := h g v hv
      subst this
      rfl
  · rename_i hnall
    push_neg at hnall
    obtain ⟨g0, hg0, hnone⟩ := hnall
    apply List.filter_eq_nil_iff.2
    intro d _
    intro hall
    rw [List.all_eq_true] at hall
    have := hall g0 hg0
    cases hv : alookup g0 ix.postings with
    | none => rw [hv] at this; cases this
    | some v => rw [hv] at hnone; cases hnone rfl

/-! ### Gram extraction lemmas -/

/-- The grams of a single word: the word itself when shorter than the window
width, its width-3 windows otherwise. -/
def gramsList (s : List Nat) : List Gram :=
  if s.length < 3 then [s] else windows3 s

theorem mem_foldl_appendIfUnique :
    ∀ (gs : List Gram) (acc : List Gram) (g : Gram),
      g ∈ gs.foldl appendIfUnique acc ↔ g ∈ acc ∨ g ∈ gs := by
  intro gs
  induction gs with
  | nil => intro acc g; simp
  | cons g0 t ih =>
    intro acc g
    simp only [List.foldl_cons, ih, appendIfUnique]
    split
    · rename_i hmem
      constructor
      · rintro (h | h)
        · exact Or.inl h
        · exact Or.inr (List.mem_cons_of_mem _ h)
      · rintro (h | h)
        · exact Or.inl h
        · rcases List.mem_cons.1 h with rfl | h'
          · exact Or.inl hmem
          · exact Or.inr h'
    · constructor
      · rintro (h | h)
        · rcases List.mem_append.1 h with h' | h'
          · exact Or.inl h'
          · simp only [List.mem_singleton] at h'
            subst h'
            exact Or.inr (List.mem_cons_self _ _)
        · exact Or.inr (List.mem_cons_of_mem _ h)
      · rintro (h | h)
        · exact Or.inl (List.mem_append.2 (Or.inl h))
        · rcases List.mem_cons.1 h with rfl | h'
          · exact Or.inl (List.mem_append.2 (Or.inr (List.mem_singleton.2 rfl)))
          · exact Or.inr h'

theorem mem_extract_iff (s : List Nat) (acc : List Gram) (g : Gram) :
    g ∈ extract s acc ↔ g ∈ acc ∨ g ∈ gramsList s := by
  unfold extract gramsList
  split
  · unfold appendIfUnique
    split
    · rename_i hmem
      simp only [List.mem_singleton]
      constructor
      · exact Or.inl
      · rintro (h | h)
        · exact h
        · rw [h]; exact hmem
    · simp
  · exact mem_foldl_appendIfUnique _ _ _

theorem mem_analyze_grams_iff (text : List Nat) (g : Gram) :
    g ∈ (analyze text).1 ↔ ∃ w ∈ (analyze text).2, g ∈ gramsList w := by
  show g ∈ (analyzeWords text).foldl (fun acc w => extract w acc) [] ↔
    ∃ w ∈ analyzeWords text, g ∈ gramsList w
  have hgen : ∀ (ws : List (List Nat)) (acc : List Gram),
      g ∈ ws.foldl (fun acc w => extract w acc) acc ↔
        g ∈ acc ∨ ∃ w ∈ ws, g ∈ gramsList w := by
    intro ws
    induction ws with
    | nil => intro acc; simp
    | cons w t ih =>
      intro acc
      simp only [List.foldl_cons, ih, mem_extract_iff, List.mem_cons]
      constructor
      · rintro ((h | h) | h)
        · exact Or.inl h
        · exact Or.inr ⟨w, Or.inl rfl, h⟩
        · obtain ⟨w', hw', hg⟩ := h
          exact Or.inr ⟨w', Or.inr hw', hg⟩
      · rintro (h | ⟨w', hw', hg⟩)
        · exact Or.inl (Or.inl h)
        · rcases hw' with rfl | hw'
          · exact Or.inl (Or.inr hg)
          · exact Or.inr ⟨w', hw', hg⟩
  rw [hgen]
  simp

theorem extract_ne_nil {w : List Nat} (hw : w ≠ []) : extract w [] ≠ [] := by
  intro habs
  unfold extract at habs
  split at habs
  · unfold appendIfUnique at habs
    split at habs <;> simp_all
  · rename_i hlen
    push_neg at hlen
    cases w with
    | nil => exact hw rfl
    | cons a t =>
      cases t with
      | nil => simp at hlen
      | cons b t' =>
        cases t' with
        | nil => simp at hlen
        | cons c t'' =>
          have : [a, b, c] ∈ windows3 (a :: b :: c :: t'') := by
            unfold windows3
            exact List.mem_cons_self _ _
          have hmem := (mem_foldl_appendIfUnique (windows3 (a :: b :: c :: t'')) [] [a, b, c]).2
            (Or.inr this)
          rw [habs] at hmem
          cases hmem

/-- Every window of a prefix is a window of the longer list. -/
theorem windows3_subset_of_pfx :
    ∀ {p w : List Nat}, p <+: w → ∀ g ∈ windows3 p, g ∈ windows3 w := by
  intro p
  induction p with
  | nil => intro w _ g hg; simp [windows3] at hg
  | cons a t ih =>
    intro w hp g hg
    cases t with
    | nil => simp [windows3] at hg
    | cons b t' =>
      cases t' with
      | nil => simp [windows3] at hg
      | cons c t'' =>
        cases w with
        | nil => exact absurd hp.length_le (by simp)
        | cons a' w' =>
          rw [List.cons_prefix_cons] at hp
          obtain ⟨rfl, hp'⟩ := hp
          cases w' with
          | nil => exact absurd hp'.length_le (by simp)
          | cons b' w'' =>
            rw [List.cons_prefix_cons] at hp'
            obtain ⟨rfl, hp''⟩ := hp'
            cases w'' with
            | nil => exact absurd hp''.length_le (by simp)
            | cons c' w''' =>
              rw [List.cons_prefix_cons] at hp''
              obtain ⟨rfl, hp3⟩ := hp''
              simp only [windows3, List.mem_cons] at hg ⊢
              rcases hg with rfl | hg
              · exact Or.inl rfl
              · refine Or.inr (ih ?_ g hg)
                rw [List.cons_prefix_cons]
                exact ⟨rfl, by rw [List.cons_prefix_cons]; exact ⟨rfl, hp3⟩⟩

/-! ### The update scenario (claim C3) -/

theorem nonemptyActives_nil : NonemptyActives [] := by
  intro g l hl
  cases hl

/-- The state after indexing a single document into a fresh service: one
metadata entry under internal id 0, one identity entry, one allocated id,
and (the corpus being below the prune threshold) only pruned postings. -/
theorem first_upsert_state {id : Nat} {old : List Nat} {s1 : Service}
    (h1 : upsertRun Service.empty [⟨id, old, []⟩] = (s1, none)) :
    s1.docs = [(0, ⟨(analyze old).2, id⟩)] ∧
    s1.extIDs = [(id, 0)] ∧
    s1.idx.total = 1 ∧
    AllNoneP s1.idx.postings := by
  have hst := upsertRun_ok_state h1
  simp only [List.foldl_cons, List.foldl_nil] at hst
  have hd : alookup (⟨id, old, []⟩ : Doc).ID Service.empty.extIDs = none := rfl
  rw [applyDoc_eq_none hd] at hst
  refine ⟨by rw [hst]; rfl, by rw [hst]; rfl, by rw [hst]; rfl, ?_⟩
  rw [hst]
  show AllNoneP ((Service.empty.idx.addTrigrams (analyze old).1).1.prune).postings
  refine allNoneP_prune ?_ ?_
  · exact foldl_insert_nonemptyActives _ _ _ nonemptyActives_nil
  · rw [addTrigrams_total]
    decide

/-- The state after updating that document with the correct prior text: the
old internal id 0 is gone from metadata, the new text lives under internal
id 1, the identity map points at 1, two ids were ever allocated, all
postings are pruned again, and every gram of the new text has an entry. -/
theorem second_upsert_state {id : Nat} {old new : List Nat} {s1 s2 : Service}
    (h1 : upsertRun Service.empty [⟨id, old, []⟩] = (s1, none))
    (h2 : upsertRun s1 [⟨id, new, old⟩] = (s2, none)) :
    s2.docs = [(1, ⟨(analyze new).2, id⟩)] ∧
    s2.extIDs = [(id, 1)] ∧
    s2.idx.total = 2 ∧
    AllNoneP s2.idx.postings ∧
    ∀ g ∈ (analyze new).1, (alookup g s2.idx.postings).isSome := by
  obtain ⟨hdocs1, hext1, htot1, hall1⟩ := first_upsert_state h1
  have hst := upsertRun_ok_state h2
  simp only [List.foldl_cons, List.foldl_nil] at hst
  have hd : alookup (⟨id, new, old⟩ : Doc).ID s1.extIDs = some 0 := by
    show alookup id s1.extIDs = some 0
    rw [hext1]
    simp [alookup]
  rw [applyDoc_eq_some hd] at hst
  rw [foldl_deleteWord_allNone hall1] at hst
  refine ⟨?_, ?_, ?_, ?_, ?_⟩
  · rw [hst]
    show aset s1.idx.total _ (aerase 0 s1.docs) = _
    rw [htot1, hdocs1]
    simp [aerase, aset]
  · rw [hst]
    show aset id s1.idx.total s1.extIDs = _
    rw [htot1, hext1]
    simp [aset]
  · rw [hst]
    show ((s1.idx.addTrigrams (analyze new).1).1.prune).total = 2
    rw [prune_total, addTrigrams_total, htot1]
  · rw [hst]
    show AllNoneP ((s1.idx.addTrigrams (analyze new).1).1.prune).postings
    refine allNoneP_prune ?_ ?_
    · exact foldl_insert_nonemptyActives _ _ _ (allNoneP_nonemptyActives hall1)
    · rw [addTrigrams_total, htot1]
      decide
  · intro g hg
    rw [hst]
    show (alookup g ((s1.idx.addTrigrams (analyze new).1).1.prune).postings).isSome
    refine prune_isSome _ _ ?_
    exact foldl_insert_isSome _ _ _ _ (Or.inl hg)

/-! ### Claim C3 (amended) -/

/-- C3 amended: after indexing a document into a fresh service and updating
it with the correct prior text, searching a single-token term that is not a
prefix of any token of the new text (in particular any term unique to the
old text) returns the empty list, and searching a term of length at least 2
that is a prefix of some token of the new text returns exactly that
document's external id.  (One-byte terms unique to the new text can return
the empty list instead.) -/
theorem C3_update_correctness (id : Nat) (old new : List Nat) (s1 s2 : Service)
    (h1 : upsertRun Service.empty [⟨id, old, []⟩] = (s1, none))
    (h2 : upsertRun s1 [⟨id, new, old⟩] = (s2, none))
    (t : List Nat) (htne : t ≠ []) (htb : ∀ b ∈ t, tokByte b) :
    ((∀ tok ∈ tokenize (replaceAll new), ¬ t <+: tok) → searchNC s2 t = .results []) ∧
    (2 ≤ t.length → (∃ tok ∈ tokenize (replaceAll new), t <+: tok) →
      searchNC s2 t = .results [id]) := by
  obtain ⟨hdocs, hext, htot, hallN, hpres⟩ := second_upsert_state h1 h2
  have hanq : analyze t = (extract (underscore :: t) [], [underscore :: t]) :=
    analyze_single_tok htne htb
  have hgne : (analyze t).1 ≠ [] := by
    rw [hanq]
    exact extract_ne_nil (by simp)
  have hwords : (analyze new).2 = (tokenize (replaceAll new)).map (fun x => underscore :: x) := rfl
  have hwf : ∀ tk ∈ tokenize (replaceAll new), ∀ b ∈ tk, tokByte b :=
    fun tk htk => (tokenize_wf _ tk htk).2
  have hrun : searchNC s2 t = .results
      ((s2.idx.queryTrigrams (analyze t).1).filterMap (fun d =>
        match alookup d s2.docs with
        | none => none
        | some m => if ((analyze t).2).all (fun w => saLookup (buildSaText m.saWords) w) then some m.id
                    else none)) := by
    unfold searchNC
    simp only [search]
    rw [if_neg (by simpa [List.isEmpty_iff] using hgne)]
    rw [searchLoop_ctxNone, List.nil_append]
  constructor
  · intro hnot
    rw [hrun]
    congr 1
    apply List.filterMap_eq_nil_iff.mpr
    intro d _
    rw [hdocs]
    by_cases hd1 : d = 1
    · subst hd1
      show (match some (⟨(analyze new).2, id⟩ : Meta) with
            | none => none
            | some m => if ((analyze t).2).all (fun w => saLookup (buildSaText m.saWords) w) then some m.id
                        else none) = none
      dsimp only
      rw [if_neg]
      intro hall
      rw [hanq] at hall
      simp only [List.all_cons, List.all_nil, Bool.and_true] at hall
      rw [hwords] at hall
      rw [saLookup_word_iff hwf htne htb] at hall
      obtain ⟨tok, hmem, hp⟩ := hall
      exact hnot tok hmem hp
    · show (match alookup d [(1, (⟨(analyze new).2, id⟩ : Meta))] with
            | none => none
            | some m => if ((analyze t).2).all (fun w => saLookup (buildSaText m.saWords) w) then some m.id
                        else none) = none
      rw [show alookup d [(1, (⟨(analyze new).2, id⟩ : Meta))] = none by
        simp [alookup, hd1]]
  · intro hlen hex
    rw [hrun]
    have hsub : ∀ g ∈ (analyze t).1, (alookup g s2.idx.postings).isSome := by
      intro g hg
      obtain ⟨tok, hmem, hp⟩ := hex
      rw [hanq] at hg
      rw [mem_extract_iff] at hg
      rcases hg with hg | hg
      · cases hg
      · have hg3 : gramsList (underscore :: t) = windows3 (underscore :: t) := by
          unfold gramsList
          rw [if_neg (by simp only [List.length_cons, not_lt]; omega)]
        rw [hg3] at hg
        have hpw : (underscore :: t) <+: (underscore :: tok) := by
          rw [List.cons_prefix_cons]
          exact ⟨rfl, hp⟩
        have hg' : g ∈ windows3 (underscore :: tok) := windows3_subset_of_pfx hpw g hg
        have htlen : t.length ≤ tok.length := hp.length_le
        have hg'' : g ∈ gramsList (underscore :: tok) := by
          unfold gramsList
          rw [if_neg (by simp only [List.length_cons, not_lt]; omega)]
          exact hg'
        refine hpres g ?_
        rw [mem_analyze_grams_iff]
        refine ⟨underscore :: tok, ?_, hg''⟩
        rw [hwords, List.mem_map]
        exact ⟨tok, hmem, rfl⟩
    have hcands : s2.idx.queryTrigrams (analyze t).1 = [0, 1] := by
      rw [queryTrigrams_allNone hallN _ hgne, if_pos hsub, htot]
      decide
    rw [hcands, hdocs]
    have hlook0 : alookup 0 [(1, (⟨(analyze new).2, id⟩ : Meta))] = none := by
      simp [alookup]
    have hlook1 : alookup 1 [(1, (⟨(analyze new).2, id⟩ : Meta))] =
        some ⟨(analyze new).2, id⟩ := by
      simp [alookup]
    simp only [List.filterMap_cons, List.filterMap_nil, hlook0, hlook1]
    have hcond : ((analyze t).2).all
        (fun w => saLookup (buildSaText (analyze new).2) w) = true := by
      rw [hanq]
      simp only [List.all_cons, List.all_nil, Bool.and_true]
      rw [hwords, saLookup_word_iff hwf htne htb]
      exact hex
    rw [if_pos hcond]

/-- Witness for C3 at a concrete input: updating document 3 from `pickled
peppers` to `spicy peppers` makes `pickled` return empty and `spicy` return
exactly `[3]`. -/
theorem C3_update_correctness_witness :
    searchNC (upsertRun (upsertRun Service.empty [⟨3, bytes "pickled peppers", []⟩]).1
      [⟨3, bytes "spicy peppers", bytes "pickled peppers"⟩]).1 (bytes "pickled") =
        .results [] ∧
    searchNC (upsertRun (upsertRun Service.empty [⟨3, bytes "pickled peppers", []⟩]).1
      [⟨3, bytes "spicy peppers", bytes "pickled peppers"⟩]).1 (bytes "spicy") =
        .results [3] := by
  constructor
  · exact (C3_update_correctness 3 (bytes "pickled peppers") (bytes "spicy peppers")
      (upsertRun Service.empty [⟨3, bytes "pickled peppers", []⟩]).1
      (upsertRun (upsertRun Service.empty [⟨3, bytes "pickled peppers", []⟩]).1
        [⟨3, bytes "spicy peppers", bytes "pickled peppers"⟩]).1
      (by decide) (by decide) (bytes "pickled") (by decide) (by decide)).1 (by decide)
  · exact (C3_update_correctness 3 (bytes "pickled peppers") (bytes "spicy peppers")
      (upsertRun Service.empty [⟨3, bytes "pickled peppers", []⟩]).1
      (upsertRun (upsertRun Service.empty [⟨3, bytes "pickled peppers", []⟩]).1
        [⟨3, bytes "spicy peppers", bytes "pickled peppers"⟩]).1
      (by decide) (by decide) (bytes "spicy") (by decide) (by decide)).2 (by decide) (by decide)

/-! ### Map-membership lemmas -/

theorem alookup_mem_pair {α β : Type} [DecidableEq α] {k : α} {v : β} :
    ∀ {l : List (α × β)}, alookup k l = some v → (k, v) ∈ l := by
  intro l
  induction l with
  | nil => intro h; cases h
  | cons p t ih =>
    intro h
    by_cases hk : k = p.1
    · simp only [alookup, if_pos hk] at h
      obtain ⟨pf, psnd⟩ := p
      simp only at hk
      injection h with hv
      simp only at hv
      subst hk
      subst hv
      exact List.mem_cons_self _ _
    · simp only [alookup, if_neg hk] at h
      exact List.mem_cons_of_mem _ (ih h)

theorem mem_aset_sub {α β : Type} [DecidableEq α] {q : α × β} (k : α) (v : β) :
    ∀ {l : List (α × β)}, q ∈ aset k v l → q = (k, v) ∨ q ∈ l := by
  intro l
  induction l with
  | nil => intro h; simp only [aset, List.mem_singleton] at h; exact Or.inl h
  | cons p t ih =>
    intro h
    unfold aset at h
    split at h
    · rcases List.mem_cons.1 h with rfl | h'
      · exact Or.inl rfl
      · exact Or.inr (List.mem_cons_of_mem _ h')
    · rcases List.mem_cons.1 h with rfl | h'
      · exact Or.inr (List.mem_cons_self _ _)
      · rcases ih h' with h'' | h''
        · exact Or.inl h''
        · exact Or.inr (List.mem_cons_of_mem _ h'')

theorem mem_aerase_sub {α β : Type} [DecidableEq α] {q : α × β} (k : α) :
    ∀ {l : List (α × β)}, q ∈ aerase k l → q ∈ l := by
  intro l
  induction l with
  | nil => intro h; cases h
  | cons p t ih =>
    intro h
    unfold aerase at h
    split at h
    · exact List.mem_cons_of_mem _ h
    · rcases List.mem_cons.1 h with rfl | h'
      · exact List.mem_cons_self _ _
      · exact List.mem_cons_of_mem _ (ih h')

theorem foldl_insert_preserve_active (ts : List Gram) (id : Nat) :
    ∀ (ps : List (Gram × Option (List Nat))) (g : Gram) (l : List Nat) (id0 : Nat),
      alookup g ps = some (some l) → id0 ∈ l →
      ∃ l', alookup g (ts.foldl (fun ps g => insertPosting g id ps) ps) = some (some l') ∧
        id0 ∈ l' := by
  induction ts with
  | nil => intro ps g l id0 h hm; exact ⟨l, h, hm⟩
  | cons g0 rest ih =>
    intro ps g l id0 h hm
    simp only [List.foldl_cons]
    by_cases hg : g = g0
    · subst hg
      have hnew : alookup g (insertPosting g id ps) = some (some (l ++ [id])) := by
        rw [alookup_insertPosting_self, h]
      exact ih _ g (l ++ [id]) id0 hnew (List.mem_append.2 (Or.inl hm))
    · exact ih _ g l id0 (by rw [alookup_insertPosting_ne _ _ _ _ hg]; exact h) hm

/-! ### Posting soundness (claim C1) -/

/-- The grams accumulated over a word list, exactly as `analyze` builds its
first component. -/
def gramsOfWords (ws : List (List Nat)) : List Gram :=
  ws.foldl (fun acc w => extract w acc) []

theorem analyze_fst_eq_gramsOfWords (t : List Nat) :
    (analyze t).1 = gramsOfWords (analyze t).2 := rfl

/-- Every active posting points at a live metadata entry one of whose
current grams it is: no posting survives for a removed internal id or for
stale text. -/
def PostSound (s : Service) : Prop :=
  ∀ g l, alookup g s.idx.postings = some (some l) → ∀ dd ∈ l,
    ∃ m, alookup dd s.docs = some m ∧ g ∈ gramsOfWords m.saWords

/-- Active posting lists carry no duplicate internal ids. -/
def PostNodup (s : Service) : Prop :=
  ∀ g l, alookup g s.idx.postings = some (some l) → l.Nodup

theorem appendIfUnique_nodup {acc : List Gram} (h : acc.Nodup) (g : Gram) :
    (appendIfUnique acc g).Nodup := by
  unfold appendIfUnique
  split
  · exact h
  · rename_i hnm
    exact List.Nodup.append h (List.nodup_singleton _)
      (fun a ha hb => by
        simp only [List.mem_singleton] at hb
        subst hb
        exact hnm ha)

theorem foldl_appendIfUnique_nodup (gs : List Gram) :
    ∀ acc : List Gram, acc.Nodup → (gs.foldl appendIfUnique acc).Nodup := by
  induction gs with
  | nil => intro acc h; exact h
  | cons g t ih => intro acc h; exact ih _ (appendIfUnique_nodup h g)

theorem extract_nodup (w : List Nat) {acc : List Gram} (h : acc.Nodup) :
    (extract w acc).Nodup := by
  unfold extract
  split
  · exact appendIfUnique_nodup h w
  · exact foldl_appendIfUnique_nodup _ _ h

theorem analyze_grams_nodup (t : List Nat) : (analyze t).1.Nodup := by
  show ((analyzeWords t).foldl (fun acc w => extract w acc) []).Nodup
  have hgen : ∀ (ws : List (List Nat)) (acc : List Gram), acc.Nodup →
      (ws.foldl (fun acc w => extract w acc) acc).Nodup := by
    intro ws
    induction ws with
    | nil => intro acc h; exact h
    | cons w rest ih => intro acc h; exact ih _ (extract_nodup w h)
  exact hgen _ [] List.nodup_nil

/-- Soundness of one `AddTrigrams` call: a member of an active posting list
afterwards is the fresh id on one of the supplied grams, or was already
posted. -/
theorem foldl_insert_sound (ts : List Gram) (id : Nat) :
    ∀ (ps : List (Gram × Option (List Nat))) (g : Gram) (l' : List Nat),
      alookup g (ts.foldl (fun ps g => insertPosting g id ps) ps) = some (some l') →
      ∀ dd ∈ l', (dd = id ∧ g ∈ ts) ∨ ∃ l, alookup g ps = some (some l) ∧ dd ∈ l := by
  induction ts with
  | nil =>
    intro ps g l' h dd hdd
    exact Or.inr ⟨l', h, hdd⟩
  | cons g0 rest ih =>
    intro ps g l' h dd hdd
    simp only [List.foldl_cons] at h
    rcases ih _ g l' h dd hdd with ⟨rfl, hmem⟩ | ⟨l, hl, hdl⟩
    · exact Or.inl ⟨rfl, List.mem_cons_of_mem _ hmem⟩
    · by_cases hg : g = g0
      · subst hg
        rw [alookup_insertPosting_self] at hl
        injection hl with hv
        cases hv0 : alookup g ps with
        | none =>
          rw [hv0] at hv
          injection hv with hv'
          rw [← hv'] at hdl
          simp only [List.mem_singleton] at hdl
          exact Or.inl ⟨hdl, List.mem_cons_self _ _⟩
        | some v =>
          cases v with
          | none =>
            rw [hv0] at hv
            cases hv
          | some l0 =>
            rw [hv0] at hv
            injection hv with hv'
            rw [← hv'] at hdl
            rcases List.mem_append.1 hdl with hdl | hdl
            · exact Or.inr ⟨l0, rfl, hdl⟩
            · simp only [List.mem_singleton] at hdl
              exact Or.inl ⟨hdl, List.mem_cons_self _ _⟩
      · rw [alookup_insertPosting_ne _ _ _ _ hg] at hl
        exact Or.inr ⟨l, hl, hdl⟩

/-- One `AddTrigrams` call keeps active posting lists duplicate-free when
the supplied grams are distinct and the fresh id is posted nowhere yet. -/
theorem foldl_insert_nodup (ts : List Gram) (id : Nat) :
    ∀ (ps : List (Gram × Option (List Nat))), ts.Nodup →
      (∀ g l, alookup g ps = some (some l) → l.Nodup) →
      (∀ g ∈ ts, ∀ l, alookup g ps = some (some l) → id ∉ l) →
      ∀ g l, alookup g (ts.foldl (fun ps g => insertPosting g id ps) ps) = some (some l) →
        l.Nodup := by
  induction ts with
  | nil => intro ps _ hnd _ g l h; exact hnd g l h
  | cons g0 rest ih =>
    intro ps hts hnd hfree g l h
    simp only [List.foldl_cons] at h
    simp only [List.nodup_cons] at hts
    refine ih _ hts.2 ?_ ?_ g l h
    · intro g' l' h'
      by_cases hg : g' = g0
      · subst hg
        rw [alookup_insertPosting_self] at h'
        injection h' with hv
        cases hv0 : alookup g' ps with
        | none =>
          rw [hv0] at hv
          injection hv with hv'
          rw [← hv']
          exact List.nodup_singleton _
        | some v =>
          cases v with
          | none =>
            rw [hv0] at hv
            cases hv
          | some l0 =>
            rw [hv0] at hv
            injection hv with hv'
            rw [← hv']
            refine List.Nodup.append (hnd g' l0 hv0) (List.nodup_singleton _) ?_
            intro a ha hb
            simp only [List.mem_singleton] at hb
            subst hb
            exact hfree g' (List.mem_cons_self _ _) l0 hv0 ha
      · rw [alookup_insertPosting_ne _ _ _ _ hg] at h'
        exact hnd g' l' h'
    · intro g' hg' l' h'
      have hgne : g' ≠ g0 := fun habs => hts.1 (habs ▸ hg')
      rw [alookup_insertPosting_ne _ _ _ _ hgne] at h'
      exact hfree g' (List.mem_cons_of_mem _ hg') l' h'

theorem alookup_delPosting_ne (g g' : Gram) (id : Nat)
    (ps : List (Gram × Option (List Nat))) (hne : g' ≠ g) :
    alookup g' (delPosting g id ps) = alookup g' ps := by
  unfold delPosting
  cases hl : alookup g ps with
  | none => rfl
  | some v =>
    cases v with
    | none => rfl
    | some l => exact alookup_aset_ne _ _ _ hne _

theorem alookup_delPosting_self (g : Gram) (id : Nat)
    (ps : List (Gram × Option (List Nat))) :
    alookup g (delPosting g id ps) =
      match alookup g ps with
      | some (some l) => some (some (l.erase id))
      | x => x := by
  unfold delPosting
  cases hl : alookup g ps with
  | none => exact hl
  | some v =>
    cases v with
    | none => exact hl
    | some l => exact alookup_aset_self _ _ _

/-- An active list after a gram-deletion pass is a subset of the active
list before it. -/
theorem foldl_del_sub (gs : List Gram) (id : Nat) :
    ∀ (ps : List (Gram × Option (List Nat))) (g : Gram) (l' : List Nat),
      alookup g (gs.foldl (fun ps g => delPosting g id ps) ps) = some (some l') →
      ∃ l, alookup g ps = some (some l) ∧ l' ⊆ l := by
  induction gs with
  | nil => intro ps g l' h; exact ⟨l', h, fun a ha => ha⟩
  | cons g0 rest ih =>
    intro ps g l' h
    simp only [List.foldl_cons] at h
    obtain ⟨l1, h1, hsub1⟩ := ih _ g l' h
    by_cases hg : g = g0
    · subst hg
      rw [alookup_delPosting_self] at h1
      cases hv0 : alookup g ps with
      | none => rw [hv0] at h1; cases h1
      | some v =>
        cases v with
        | none => rw [hv0] at h1; cases h1
        | some l0 =>
          rw [hv0] at h1
          injection h1 with hv
          injection hv with hv'
          refine ⟨l0, rfl, ?_⟩
          rw [← hv'] at hsub1
          exact hsub1.trans (List.erase_subset _ _)
    · rw [alookup_delPosting_ne _ _ _ _ hg] at h1
      exact ⟨l1, h1, hsub1⟩

theorem foldl_del_nodup (gs : List Gram) (id : Nat) :
    ∀ (ps : List (Gram × Option (List Nat))),
      (∀ g l, alookup g ps = some (some l) → l.Nodup) →
      ∀ g l, alookup g (gs.foldl (fun ps g => delPosting g id ps) ps) = some (some l) →
        l.Nodup := by
  induction gs with
  | nil => intro ps hnd g l h; exact hnd g l h
  | cons g0 rest ih =>
    intro ps hnd g l h
    simp only [List.foldl_cons] at h
    refine ih _ ?_ g l h
    intro g' l' h'
    by_cases hg : g' = g0
    · subst hg
      rw [alookup_delPosting_self] at h'
      cases hv0 : alookup g' ps with
      | none => rw [hv0] at h'; cases h'
      | some v =>
        cases v with
        | none => rw [hv0] at h'; cases h'
        | some l0 =>
          rw [hv0] at h'
          injection h' with hv
          injection hv with hv'
          rw [← hv']
          exact (hnd g' l0 hv0).erase id
    · rw [alookup_delPosting_ne _ _ _ _ hg] at h'
      exact hnd g' l' h'

/-- After a gram-deletion pass that covers gram `g`, the deleted id is gone
from `g`'s active list. -/
theorem foldl_del_removes (gs : List Gram) (id : Nat) :
    ∀ (ps : List (Gram × Option (List Nat))) (g : Gram), g ∈ gs →
      (∀ l, alookup g ps = some (some l) → l.Nodup) →
      ∀ l', alookup g (gs.foldl (fun ps g => delPosting g id ps) ps) = some (some l') →
        id ∉ l' := by
  induction gs with
  | nil => intro ps g h; cases h
  | cons g0 rest ih =>
    intro ps g hg hnd l' h
    simp only [List.foldl_cons] at h
    by_cases hgg : g = g0
    · subst hgg
      obtain ⟨l1, h1, hsub1⟩ := foldl_del_sub rest id _ g l' h
      rw [alookup_delPosting_self] at h1
      cases hv0 : alookup g ps with
      | none => rw [hv0] at h1; cases h1
      | some v =>
        cases v with
        | none => rw [hv0] at h1; cases h1
        | some l0 =>
          rw [hv0] at h1
          injection h1 with hv
          injection hv with hv'
          intro habs
          have : id ∈ l1 := hsub1 habs
          rw [← hv'] at this
          exact (hnd l0 hv0).not_mem_erase this
    · rcases List.mem_cons.1 hg with h' | h'
      · exact absurd h' hgg
      · refine ih _ g h' ?_ l' h
        intro l1 h1
        rw [alookup_delPosting_ne _ _ _ _ hgg] at h1
        exact hnd l1 h1

/-! ### Word-level deletion facts -/

theorem foldl_deleteWord_postings (ws : List (List Nat)) (id : Nat) :
    ∀ (ix : TrigramIndex),
      (ws.foldl (fun i w => i.deleteWord w id) ix).postings =
        ws.foldl (fun ps w => (extract w []).foldl (fun ps g => delPosting g id ps) ps)
          ix.postings := by
  induction ws with
  | nil => intro ix; rfl
  | cons w rest ih =>
    intro ix
    simp only [List.foldl_cons]
    rw [ih]
    rfl

theorem words_del_sub (ws : List (List Nat)) (id : Nat) :
    ∀ (ps : List (Gram × Option (List Nat))) (g : Gram) (l' : List Nat),
      alookup g (ws.foldl (fun ps w =>
          (extract w []).foldl (fun ps g => delPosting g id ps) ps) ps) = some (some l') →
      ∃ l, alookup g ps = some (some l) ∧ l' ⊆ l := by
  induction ws with
  | nil => intro ps g l' h; exact ⟨l', h, fun a ha => ha⟩
  | cons w rest ih =>
    intro ps g l' h
    simp only [List.foldl_cons] at h
    obtain ⟨l1, h1, hsub1⟩ := ih _ g l' h
    obtain ⟨l0, h0, hsub0⟩ := foldl_del_sub _ id _ g l1 h1
    exact ⟨l0, h0, hsub1.trans hsub0⟩

theorem words_del_nodup (ws : List (List Nat)) (id : Nat) :
    ∀ (ps : List (Gram × Option (List Nat))),
      (∀ g l, alookup g ps = some (some l) → l.Nodup) →
      ∀ g l, alookup g (ws.foldl (fun ps w =>
          (extract w []).foldl (fun ps g => delPosting g id ps) ps) ps) = some (some l) →
        l.Nodup := by
  induction ws with
  | nil => intro ps hnd g l h; exact hnd g l h
  | cons w rest ih =>
    intro ps hnd g l h
    simp only [List.foldl_cons] at h
    exact ih _ (foldl_del_nodup _ id _ hnd) g l h

/-- A deletion pass over a word list removes the id from every active
posting list, provided every posting that carried the id belonged to a gram
of one of the words. -/
theorem words_del_removes (ws : List (List Nat)) (id : Nat) :
    ∀ (ps : List (Gram × Option (List Nat))),
      (∀ g l, alookup g ps = some (some l) → l.Nodup) →
      (∀ g l, alookup g ps = some (some l) → id ∈ l → ∃ w ∈ ws, g ∈ extract w []) →
      ∀ g l', alookup g (ws.foldl (fun ps w =>
          (extract w []).foldl (fun ps g => delPosting g id ps) ps) ps) = some (some l') →
        id ∉ l' := by
  induction ws with
  | nil =>
    intro ps _ hcov g l' h habs
    obtain ⟨w, hw, _⟩ := hcov g l' h habs
    cases hw
  | cons w rest ih =>
    intro ps hnd hcov g l' h
    simp only [List.foldl_cons] at h
    refine ih _ (foldl_del_nodup _ id _ hnd) ?_ g l' h
    intro g1 l1 h1 hid1
    obtain ⟨l0, h0, hsub0⟩ := foldl_del_sub _ id _ g1 l1 h1
    have hid0 : id ∈ l0 := hsub0 hid1
    obtain ⟨w', hw', hg'⟩ := hcov g1 l0 h0 hid0
    rcases List.mem_cons.1 hw' with rfl | hw''
    · exfalso
      exact foldl_del_removes _ id _ g1 hg' (fun l hl => hnd g1 l hl) l1 h1 hid1
    · exact ⟨w', hw'', hg'⟩

theorem prune_active_inv {ix : TrigramIndex} {g : Gram} {l : List Nat}
    (h : alookup g ix.prune.postings = some (some l)) :
    alookup g ix.postings = some (some l) := by
  rw [alookup_prune] at h
  cases hv : alookup g ix.postings with
  | none => rw [hv] at h; cases h
  | some v =>
    rw [hv] at h
    cases v with
    | none =>
      simp only [Option.map] at h
      injection h with hv'
      cases hv'
    | some l0 =>
      simp only [Option.map] at h
      split at h
      · injection h with hv'; cases hv'
      · injection h with hv'
        injection hv' with hv''
        rw [hv'']

/-- One mutation-loop iteration preserves posting soundness, provided the
document's `PriorText` analyzes to exactly the stored words of its current
entry when its id is already mapped. -/
theorem postSound_applyDoc {s : Service} (hInv : Inv s) (hPS : PostSound s)
    (hPN : PostNodup s) (d : Doc)
    (hprior : ∀ d0, alookup d.ID s.extIDs = some d0 →
      ∀ m, alookup d0 s.docs = some m → (analyze d.PriorText).2 = m.saWords) :
    PostSound (applyDoc s d) ∧ PostNodup (applyDoc s d) := by
  cases hl : alookup d.ID s.extIDs with
  | none =>
    rw [applyDoc_eq_none hl]
    constructor
    · intro g l hg dd hdd
      have hg' : alookup g ((analyze d.Text).1.foldl
          (fun ps g => insertPosting g s.idx.total ps) s.idx.postings) = some (some l) := hg
      rcases foldl_insert_sound _ _ _ g l hg' dd hdd with ⟨rfl, hgts⟩ | ⟨l0, hl0, hdd0⟩
      · exact ⟨⟨(analyze d.Text).2, d.ID⟩, alookup_aset_self _ _ _, hgts⟩
      · obtain ⟨m, hm, hgm⟩ := hPS g l0 hl0 dd hdd0
        have hlt : dd < s.idx.total := hInv.docsLt dd (alookup_mem_keys hm)
        refine ⟨m, ?_, hgm⟩
        show alookup dd (aset s.idx.total _ s.docs) = some m
        rw [alookup_aset_ne _ _ _ (by omega)]
        exact hm
    · intro g l hg
      have hg' : alookup g ((analyze d.Text).1.foldl
          (fun ps g => insertPosting g s.idx.total ps) s.idx.postings) = some (some l) := hg
      refine foldl_insert_nodup _ _ _ (analyze_grams_nodup _)
        (fun g' l' h' => hPN g' l' h') ?_ g l hg'
      intro g' _ l' h' hmem
      obtain ⟨m, hm, _⟩ := hPS g' l' h' s.idx.total hmem
      exact absurd (hInv.docsLt _ (alookup_mem_keys hm)) (lt_irrefl _)
  | some d0 =>
    rw [applyDoc_eq_some hl]
    obtain ⟨m0, hm0, hm0id⟩ := hInv.extToDocs d.ID d0 hl
    have hw : (analyze d.PriorText).2 = m0.saWords := hprior d0 hl m0 hm0
    have hdelpost := foldl_deleteWord_postings (analyze d.PriorText).2 d0 s.idx
    have htot1 := foldl_deleteWord_total s.idx (analyze d.PriorText).2 d0
    have hcov : ∀ g l, alookup g s.idx.postings = some (some l) → d0 ∈ l →
        ∃ w ∈ (analyze d.PriorText).2, g ∈ extract w [] := by
      intro g l hgl hd0
      obtain ⟨m, hm, hgm⟩ := hPS g l hgl d0 hd0
      have hmeq : m = m0 := by
        rw [hm0] at hm
        injection hm with hv
        exact hv.symm
      subst hmeq
      rw [← hw] at hgm
      have hmem : g ∈ (analyze d.PriorText).1 := hgm
      rw [mem_analyze_grams_iff] at hmem
      obtain ⟨w, hwmem, hgw⟩ := hmem
      exact ⟨w, hwmem, (mem_extract_iff w [] g).2 (Or.inr hgw)⟩
    have hdel_removed : ∀ g l', alookup g (((analyze d.PriorText).2).foldl
        (fun ix w => ix.deleteWord w d0) s.idx).postings = some (some l') → d0 ∉ l' := by
      intro g l' hgl
      rw [hdelpost] at hgl
      exact words_del_removes _ d0 _ (fun g' l h => hPN g' l h) hcov g l' hgl
    have hdel_sub : ∀ g l', alookup g (((analyze d.PriorText).2).foldl
        (fun ix w => ix.deleteWord w d0) s.idx).postings = some (some l') →
        ∃ l, alookup g s.idx.postings = some (some l) ∧ l' ⊆ l := by
      intro g l' hgl
      rw [hdelpost] at hgl
      exact words_del_sub _ d0 _ g l' hgl
    have hdel_nodup : ∀ g l', alookup g (((analyze d.PriorText).2).foldl
        (fun ix w => ix.deleteWord w d0) s.idx).postings = some (some l') → l'.Nodup := by
      intro g l' hgl
      rw [hdelpost] at hgl
      exact words_del_nodup _ d0 _ (fun g' l h => hPN g' l h) g l' hgl
    constructor
    · intro g l hg dd hdd
      have hg' : alookup g ((analyze d.Text).1.foldl
          (fun ps g => insertPosting g
            (((analyze d.PriorText).2).foldl (fun ix w => ix.deleteWord w d0) s.idx).total ps)
          (((analyze d.PriorText).2).foldl (fun ix w => ix.deleteWord w d0) s.idx).postings) =
          some (some l) := hg
      rcases foldl_insert_sound _ _ _ g l hg' dd hdd with ⟨rfl, hgts⟩ | ⟨l0, hl0, hdd0⟩
      · refine ⟨⟨(analyze d.Text).2, d.ID⟩, ?_, hgts⟩
        show alookup _ (aset s.idx.total _ (aerase d0 s.docs)) = _
        rw [htot1]
        exact alookup_aset_self _ _ _
      · obtain ⟨l1, hl1, hsub1⟩ := hdel_sub g l0 hl0
        have hddl1 : dd ∈ l1 := hsub1 hdd0
        obtain ⟨m, hm, hgm⟩ := hPS g l1 hl1 dd hddl1
        have hlt : dd < s.idx.total := hInv.docsLt dd (alookup_mem_keys hm)
        have hdd0ne : dd ≠ d0 := fun habs => hdel_removed g l0 hl0 (habs ▸ hdd0)
        refine ⟨m, ?_, hgm⟩
        show alookup dd (aset s.idx.total _ (aerase d0 s.docs)) = some m
        rw [alookup_aset_ne _ _ _ (by omega), alookup_aerase_ne _ _ hdd0ne]
        exact hm
    · intro g l hg
      have hg' : alookup g ((analyze d.Text).1.foldl
          (fun ps g => insertPosting g
            (((analyze d.PriorText).2).foldl (fun ix w => ix.deleteWord w d0) s.idx).total ps)
          (((analyze d.PriorText).2).foldl (fun ix w => ix.deleteWord w d0) s.idx).postings) =
          some (some l) := hg
      refine foldl_insert_nodup _ _ _ (analyze_grams_nodup _)
        (fun g' l' h' => hdel_nodup g' l' h') ?_ g l hg'
      intro g' _ l' h' hmem
      obtain ⟨l1, hl1, hsub1⟩ := hdel_sub g' l' h'
      have hmem1 := hsub1 hmem
      obtain ⟨m, hm, _⟩ := hPS g' l1 hl1 _ hmem1
      rw [htot1] at hm
      exact absurd (hInv.docsLt _ (alookup_mem_keys hm)) (lt_irrefl _)

theorem inv_postSound_foldl (ds : List Doc) :
    ∀ (s : Service), Inv s → PostSound s → PostNodup s →
      (ds.map Doc.ID).Nodup →
      (∀ d ∈ ds, ∀ d0, alookup d.ID s.extIDs = some d0 →
        ∀ m, alookup d0 s.docs = some m → (analyze d.PriorText).2 = m.saWords) →
      Inv (ds.foldl applyDoc s) ∧ PostSound (ds.foldl applyDoc s) ∧
        PostNodup (ds.foldl applyDoc s) := by
  induction ds with
  | nil => intro s h1 h2 h3 _ _; exact ⟨h1, h2, h3⟩
  | cons d rest ih =>
    intro s hInv hPS hPN hnd hpriorB
    simp only [List.foldl_cons]
    simp only [List.map_cons, List.nodup_cons] at hnd
    obtain ⟨hPS', hPN'⟩ := postSound_applyDoc hInv hPS hPN d
      (fun d0 hd0 m hm => hpriorB d (List.mem_cons_self _ _) d0 hd0 m hm)
    refine ih (applyDoc s d) (inv_applyDoc hInv d) hPS' hPN' hnd.2 ?_
    intro d' hd' d0' hd0' m' hm'
    have hne : d'.ID ≠ d.ID := fun habs => hnd.1 (habs ▸ List.mem_map_of_mem Doc.ID hd')
    rw [(applyDoc_ext s d).2 d'.ID hne] at hd0'
    have hlt : d0' < s.idx.total := extLt_of_inv hInv d'.ID d0' hd0'
    have hmold : alookup d0' s.docs = some m' := by
      cases hl : alookup d.ID s.extIDs with
      | none =>
        rw [applyDoc_eq_none hl] at hm'
        have hm'' : alookup d0' (aset s.idx.total
            (⟨(analyze d.Text).2, d.ID⟩ : Meta) s.docs) = some m' := hm'
        rw [alookup_aset_ne _ _ _ (by omega)] at hm''
        exact hm''
      | some dd0 =>
        rw [applyDoc_eq_some hl] at hm'
        have hne0 : d0' ≠ dd0 := by
          intro habs
          subst habs
          obtain ⟨mA, hmA, hidA⟩ := hInv.extToDocs d'.ID d0' hd0'
          obtain ⟨mB, hmB, hidB⟩ := hInv.extToDocs d.ID d0' hl
          rw [hmA] at hmB
          injection hmB with hmeq
          rw [hmeq] at hidA
          exact hne (by rw [← hidA, hidB])
        have hm'' : alookup d0' (aset s.idx.total
            (⟨(analyze d.Text).2, d.ID⟩ : Meta) (aerase dd0 s.docs)) = some m' := hm'
        rw [alookup_aset_ne _ _ _ (by omega), alookup_aerase_ne _ _ hne0] at hm''
        exact hm''
    exact hpriorB d' (List.mem_cons_of_mem _ hd') d0' hd0' m' hmold

theorem postSound_prune {s : Service} (h : PostSound s) :
    PostSound { s with idx := s.idx.prune } :=
  fun g l hg dd hdd => h g l (prune_active_inv hg) dd hdd

theorem postNodup_prune {s : Service} (h : PostNodup s) :
    PostNodup { s with idx := s.idx.prune } :=
  fun g l hg => h g l (prune_active_inv hg)

/-- A batch whose documents carry pairwise-distinct external ids and, for
already-indexed ids, a `PriorText` that analyzes to exactly the stored words
of the current entry — the caller contract of `Upsert`. -/
def GoodBatch (s : Service) (ds : List Doc) : Prop :=
  (ds.map Doc.ID).Nodup ∧
  ∀ d ∈ ds, ∀ d0, alookup d.ID s.extIDs = some d0 →
    ∀ m, alookup d0 s.docs = some m → (analyze d.PriorText).2 = m.saWords

/-- Service states reachable by successful contract-respecting batches. -/
inductive GoodReach : Service → Prop
  | init : GoodReach Service.empty
  | step (s : Service) (ds : List Doc) (s' : Service) :
      GoodReach s → GoodBatch s ds → upsertRun s ds = (s', none) → GoodReach s'

theorem goodReach_inv_postSound {s : Service} (h : GoodReach s) :
    Inv s ∧ PostSound s ∧ PostNodup s := by
  induction h with
  | init =>
    refine ⟨inv_empty, ?_, ?_⟩
    · intro g l hg
      cases hg
    · intro g l hg
      cases hg
  | step s ds s' _ hgb hok ih =>
    obtain ⟨hInv, hPS, hPN⟩ := ih
    obtain ⟨hI, hS, hN⟩ := inv_postSound_foldl ds s hInv hPS hPN hgb.1 hgb.2
    rw [upsertRun_ok_state hok]
    exact ⟨inv_prune hI, postSound_prune hS, postNodup_prune hN⟩

/-! ### Claim C1 (amended) -/

/-- C1 amended: in every state reached by successful batches whose documents
carry pairwise-distinct external ids and correct prior text, each external
id in the identity map points at exactly one live metadata entry carrying it
back, and every active posting points at a live internal id and at a gram of
that document's currently stored words — never at a removed internal id or
stale text.  (A batch mentioning the same previously-unindexed external id
twice escapes validation and can leave postings for a removed internal id,
so the claim's distinctness exemption is dropped.) -/
theorem C1_state_soundness (s : Service) (h : GoodReach s) :
    (∀ e d, alookup e s.extIDs = some d → ∃ m, alookup d s.docs = some m ∧ m.id = e) ∧
    (∀ d m, alookup d s.docs = some m → alookup m.id s.extIDs = some d) ∧
    (∀ g l, alookup g s.idx.postings = some (some l) → ∀ dd ∈ l,
      ∃ m, alookup dd s.docs = some m ∧ g ∈ gramsOfWords m.saWords) := by
  obtain ⟨hInv, hPS, _⟩ := goodReach_inv_postSound h
  exact ⟨hInv.extToDocs, hInv.docsToExt, hPS⟩

/-- Witness for C1 at a concrete input: in the three-document test corpus,
external id 1 points at internal id 0, whose metadata entry carries id 1. -/
theorem C1_state_soundness_witness :
    ∃ m, alookup 0 svc3.docs = some m ∧ m.id = 1 := by
  have hg : GoodReach svc3 :=
    GoodReach.step Service.empty [docOne, docTwo, docThree] svc3 GoodReach.init
      ⟨by decide, fun d _ d0 hcontra => by cases hcontra⟩ (by decide)
  exact (C1_state_soundness svc3 hg).1 1 0 (by decide)

/-! ### Candidate-retrieval completeness (claim C2) -/

/-- Every live metadata entry stores the analyzed word list of some text:
exactly what the mutation loop records for a document's new text. -/
def DocsWF (s : Service) : Prop :=
  ∀ q ∈ s.docs, ∃ txt, (q : Nat × Meta).2.saWords = (analyze txt).2

/-- Candidate-retrieval completeness: every gram of a live document's stored
words has a posting entry, and every active entry for such a gram lists that
document, so the document survives the query-time intersection over its own
grams (pruned entries constrain nothing). -/
def PostComplete (s : Service) : Prop :=
  ∀ dd m, alookup dd s.docs = some m → ∀ g ∈ gramsOfWords m.saWords,
    ∃ v, alookup g s.idx.postings = some v ∧ ∀ l, v = some l → dd ∈ l

/-- A pruned entry stays pruned through an insertion pass. -/
theorem foldl_insert_pruned (ts : List Gram) (id : Nat) :
    ∀ (ps : List (Gram × Option (List Nat))) (g : Gram),
      alookup g ps = some none →
      alookup g (ts.foldl (fun ps g => insertPosting g id ps) ps) = some none := by
  induction ts with
  | nil => intro ps g h; exact h
  | cons g0 rest ih =>
    intro ps g h
    simp only [List.foldl_cons]
    by_cases hg : g = g0
    · subst hg
      refine ih _ g ?_
      rw [alookup_insertPosting_self, h]
    · exact ih _ g (by rw [alookup_insertPosting_ne _ _ _ _ hg]; exact h)

/-- After an insertion pass, every supplied gram has an entry, and an active
entry lists the inserted id. -/
theorem foldl_insert_complete (ts : List Gram) (id : Nat) :
    ∀ (ps : List (Gram × Option (List Nat))) (g : Gram), g ∈ ts →
      ∃ v, alookup g (ts.foldl (fun ps g => insertPosting g id ps) ps) = some v ∧
        ∀ l, v = some l → id ∈ l := by
  induction ts with
  | nil => intro ps g h; cases h
  | cons g0 rest ih =>
    intro ps g h
    simp only [List.foldl_cons]
    rcases List.mem_cons.1 h with rfl | h'
    · cases hv0 : alookup g ps with
      | none =>
        have hnew : alookup g (insertPosting g id ps) = some (some [id]) := by
          rw [alookup_insertPosting_self, hv0]
        obtain ⟨l', hl', hm'⟩ := foldl_insert_preserve_active rest id _ g [id] id hnew
          (List.mem_singleton.2 rfl)
        exact ⟨some l', hl', fun l hl => by injection hl with hv; exact hv ▸ hm'⟩
      | some v =>
        cases v with
        | none =>
          have hnew : alookup g (insertPosting g id ps) = some none := by
            rw [alookup_insertPosting_self, hv0]
          refine ⟨none, foldl_insert_pruned rest id _ g hnew, ?_⟩
          intro l hl
          cases hl
        | some l0 =>
          have hnew : alookup g (insertPosting g id ps) = some (some (l0 ++ [id])) := by
            rw [alookup_insertPosting_self, hv0]
          obtain ⟨l', hl', hm'⟩ := foldl_insert_preserve_active rest id _ g (l0 ++ [id]) id
            hnew (List.mem_append.2 (Or.inr (List.mem_singleton.2 rfl)))
          exact ⟨some l', hl', fun l hl => by injection hl with hv; exact hv ▸ hm'⟩
    · exact ih _ g h'

/-- An entry that lists a given id whenever active keeps doing so through an
insertion pass for another id. -/
theorem foldl_insert_keep (ts : List Gram) (id dd : Nat) :
    ∀ (ps : List (Gram × Option (List Nat))) (g : Gram) (v : Option (List Nat)),
      alookup g ps = some v → (∀ l, v = some l → dd ∈ l) →
      ∃ v', alookup g (ts.foldl (fun ps g => insertPosting g id ps) ps) = some v' ∧
        ∀ l, v' = some l → dd ∈ l := by
  intro ps g v hv hdd
  cases v with
  | none =>
    refine ⟨none, foldl_insert_pruned ts id ps g hv, ?_⟩
    intro l hl
    cases hl
  | some l =>
    obtain ⟨l', hl', hm'⟩ := foldl_insert_preserve_active ts id ps g l dd hv (hdd l rfl)
    exact ⟨some l', hl', fun l2 hl2 => by injection hl2 with hv2; exact hv2 ▸ hm'⟩

/-- An entry that lists a surviving id whenever active keeps doing so
through a gram-deletion pass for a different id. -/
theorem foldl_del_keep (gs : List Gram) (id dd : Nat) (hne : dd ≠ id) :
    ∀ (ps : List (Gram × Option (List Nat))) (g : Gram) (v : Option (List Nat)),
      alookup g ps = some v → (∀ l, v = some l → dd ∈ l) →
      ∃ v', alookup g (gs.foldl (fun ps g => delPosting g id ps) ps) = some v' ∧
        ∀ l, v' = some l → dd ∈ l := by
  induction gs with
  | nil => intro ps g v hv hdd; exact ⟨v, hv, hdd⟩
  | cons g0 rest ih =>
    intro ps g v hv hdd
    simp only [List.foldl_cons]
    by_cases hg : g = g0
    · subst hg
      cases v with
      | none =>
        refine ih _ g none ?_ (fun l hl => by cases hl)
        rw [alookup_delPosting_self, hv]
      | some l =>
        refine ih _ g (some (l.erase id)) ?_ ?_
        · rw [alookup_delPosting_self, hv]
        · intro l2 hl2
          injection hl2 with hv2
          rw [← hv2]
          exact (List.mem_erase_of_ne hne).2 (hdd l rfl)
    · exact ih _ g v (by rw [alookup_delPosting_ne _ _ _ _ hg]; exact hv) hdd

theorem words_del_keep (ws : List (List Nat)) (id dd : Nat) (hne : dd ≠ id) :
    ∀ (ps : List (Gram × Option (List Nat))) (g : Gram) (v : Option (List Nat)),
      alookup g ps = some v → (∀ l, v = some l → dd ∈ l) →
      ∃ v', alookup g (ws.foldl (fun ps w =>
          (extract w []).foldl (fun ps g => delPosting g id ps) ps) ps) = some v' ∧
        ∀ l, v' = some l → dd ∈ l := by
  induction ws with
  | nil => intro ps g v hv hdd; exact ⟨v, hv, hdd⟩
  | cons w rest ih =>
    intro ps g v hv hdd
    simp only [List.foldl_cons]
    obtain ⟨v1, hv1, hdd1⟩ := foldl_del_keep (extract w []) id dd hne ps g v hv hdd
    exact ih _ g v1 hv1 hdd1

theorem docsWF_applyDoc {s : Service} (h : DocsWF s) (d : Doc) :
    DocsWF (applyDoc s d) := by
  intro q hq
  cases hl : alookup d.ID s.extIDs with
  | none =>
    rw [applyDoc_eq_none hl] at hq
    rcases mem_aset_sub _ _ hq with rfl | hq'
    · exact ⟨d.Text, rfl⟩
    · exact h q hq'
  | some d0 =>
    rw [applyDoc_eq_some hl] at hq
    rcases mem_aset_sub _ _ hq with rfl | hq'
    · exact ⟨d.Text, rfl⟩
    · exact h q (mem_aerase_sub _ hq')

theorem docsWF_foldl (ds : List Doc) :
    ∀ (s : Service), DocsWF s → DocsWF (ds.foldl applyDoc s) := by
  induction ds with
  | nil => intro s h; exact h
  | cons d rest ih =>
    intro s h
    simp only [List.foldl_cons]
    exact ih _ (docsWF_applyDoc h d)

theorem docsWF_reachable {s : Service} {ids : List Nat} (h : ReachableH s ids) :
    DocsWF s := by
  induction h with
  | init => intro q hq; cases hq
  | step s ids ds s' _ hok ih =>
    rw [upsertRun_ok_state hok]
    intro q hq
    exact docsWF_foldl ds s ih q hq

/-- One mutation-loop iteration preserves candidate-retrieval completeness. -/
theorem postComplete_applyDoc {s : Service} (hInv : Inv s) (hPC : PostComplete s)
    (d : Doc) : PostComplete (applyDoc s d) := by
  cases hl : alookup d.ID s.extIDs with
  | none =>
    rw [applyDoc_eq_none hl]
    intro dd m hdd g hg
    have hdd' : alookup dd (aset s.idx.total
        (⟨(analyze d.Text).2, d.ID⟩ : Meta) s.docs) = some m := hdd
    by_cases he : dd = s.idx.total
    · subst he
      rw [alookup_aset_self] at hdd'
      injection hdd' with hv
      subst hv
      have hg' : g ∈ (analyze d.Text).1 := hg
      exact foldl_insert_complete (analyze d.Text).1 s.idx.total s.idx.postings g hg'
    · rw [alookup_aset_ne _ _ _ he] at hdd'
      obtain ⟨v, hv, hddv⟩ := hPC dd m hdd' g hg
      exact foldl_insert_keep (analyze d.Text).1 s.idx.total dd s.idx.postings g v hv hddv
  | some d0 =>
    rw [applyDoc_eq_some hl]
    intro dd m hdd g hg
    have htot1 := foldl_deleteWord_total s.idx (analyze d.PriorText).2 d0
    have hdd' : alookup dd (aset s.idx.total
        (⟨(analyze d.Text).2, d.ID⟩ : Meta) (aerase d0 s.docs)) = some m := hdd
    by_cases he : dd = s.idx.total
    · subst he
      rw [alookup_aset_self] at hdd'
      injection hdd' with hv
      subst hv
      have hg' : g ∈ (analyze d.Text).1 := hg
      rw [← htot1]
      exact foldl_insert_complete (analyze d.Text).1 _ _ g hg'
    · rw [alookup_aset_ne _ _ _ he] at hdd'
      have hne0 : dd ≠ d0 := by
        intro habs
        subst habs
        rw [alookup_aerase_self _ _ hInv.docsNodup] at hdd'
        cases hdd'
      rw [alookup_aerase_ne _ _ hne0] at hdd'
      obtain ⟨v, hv, hddv⟩ := hPC dd m hdd' g hg
      obtain ⟨v1, hv1, hdd1⟩ := words_del_keep (analyze d.PriorText).2 d0 dd hne0
        s.idx.postings g v hv hddv
      have hv1' : alookup g (((analyze d.PriorText).2).foldl
          (fun ix w => ix.deleteWord w d0) s.idx).postings = some v1 := by
        rw [foldl_deleteWord_postings]
        exact hv1
      exact foldl_insert_keep (analyze d.Text).1 _ dd _ g v1 hv1' hdd1

theorem postComplete_prune {s : Service} (h : PostComplete s) :
    PostComplete { s with idx := s.idx.prune } := by
  intro dd m hdd g hg
  obtain ⟨v, hv, hddv⟩ := h dd m hdd g hg
  cases v with
  | none =>
    refine ⟨none, ?_, fun l hl => by cases hl⟩
    show alookup g s.idx.prune.postings = some none
    rw [alookup_prune, hv]
    rfl
  | some l0 =>
    by_cases hc : 10 * l0.length > s.idx.total
    · refine ⟨none, ?_, fun l hl => by cases hl⟩
      show alookup g s.idx.prune.postings = some none
      rw [alookup_prune, hv]
      simp only [Option.map]
      rw [if_pos hc]
    · refine ⟨some l0, ?_, ?_⟩
      · show alookup g s.idx.prune.postings = some (some l0)
        rw [alookup_prune, hv]
        simp only [Option.map]
        rw [if_neg hc]
      · intro l hl
        injection hl with hv2
        rw [← hv2]
        exact hddv l0 rfl

theorem inv_postComplete_foldl (ds : List Doc) :
    ∀ (s : Service), Inv s → PostComplete s →
      PostComplete (ds.foldl applyDoc s) := by
  induction ds with
  | nil => intro s _ h; exact h
  | cons d rest ih =>
    intro s hInv hPC
    simp only [List.foldl_cons]
    exact ih _ (inv_applyDoc hInv d) (postComplete_applyDoc hInv hPC d)

theorem postComplete_reachable {s : Service} {ids : List Nat}
    (h : ReachableH s ids) : PostComplete s := by
  induction h with
  | init => intro dd m hdd g hg; cases hdd
  | step s ids ds s' hre hok ih =>
    have hInv := inv_reachable hre
    rw [upsertRun_ok_state hok]
    exact postComplete_prune (inv_postComplete_foldl ds s hInv ih)

/-! ### Claim C2 (amended) -/

/-- C2 amended: in every reachable state and for every live document —
external id mapped to an internal id whose metadata stores the analyzed
words of a text — searching any prefix of length at least 2 of any token of
that text returns a result list containing the document's external id
(one-byte prefixes of longer tokens are not found, since no indexed n-gram
starts them); and searching any term that is not a prefix of any token of
any live document (the stored words being the boundary-marked tokens) never
returns that external id. -/
theorem C2_pfx_matching (s : Service) (hs : Reachable s)
    (e dd : Nat) (m : Meta) (txt : List Nat)
    (he : alookup e s.extIDs = some dd) (hm : alookup dd s.docs = some m)
    (hws : m.saWords = (analyze txt).2) :
    (∀ tok ∈ tokenize (replaceAll txt), ∀ p, p <+: tok → 2 ≤ p.length →
      ∃ r, searchNC s p = .results r ∧ e ∈ r) ∧
    (∀ sub, sub ≠ [] → (∀ b ∈ sub, tokByte b) →
      (∀ q ∈ s.docs, ∀ uw ∈ (q : Nat × Meta).2.saWords,
        ¬ (underscore :: sub) <+: uw) →
      ∀ r, searchNC s sub = .results r → e ∉ r) := by
  obtain ⟨ids, hre⟩ := hs
  have hInv := inv_reachable hre
  have hPC := postComplete_reachable hre
  have hWF := docsWF_reachable hre
  have hmid : m.id = e := by
    obtain ⟨m2, hm2, hid2⟩ := hInv.extToDocs e dd he
    rw [hm] at hm2
    injection hm2 with hv
    rw [← hv] at hid2
    exact hid2
  constructor
  · intro tok htok p hp hplen
    have htokwf := tokenize_wf (replaceAll txt) tok htok
    have hpb : ∀ b ∈ p, tokByte b := fun b hb => htokwf.2 b (hp.subset hb)
    have hpne : p ≠ [] := by
      intro habs
      rw [habs] at hplen
      simp at hplen
    have hanq : analyze p = (extract (underscore :: p) [], [underscore :: p]) :=
      analyze_single_tok hpne hpb
    have hgne : (analyze p).1 ≠ [] := by
      rw [hanq]
      exact extract_ne_nil (by simp)
    have hlt : dd < s.idx.total := hInv.docsLt dd (alookup_mem_keys hm)
    have hsub : ∀ g ∈ (analyze p).1, g ∈ (analyze txt).1 := by
      intro g hg
      rw [hanq, mem_extract_iff] at hg
      rcases hg with hg | hg
      · cases hg
      · have hg3 : gramsList (underscore :: p) = windows3 (underscore :: p) := by
          unfold gramsList
          rw [if_neg (by simp only [List.length_cons, not_lt]; omega)]
        rw [hg3] at hg
        have hpw : (underscore :: p) <+: (underscore :: tok) := by
          rw [List.cons_prefix_cons]
          exact ⟨rfl, hp⟩
        have hg' : g ∈ windows3 (underscore :: tok) := windows3_subset_of_pfx hpw g hg
        have htlen : p.length ≤ tok.length := hp.length_le
        have hg'' : g ∈ gramsList (underscore :: tok) := by
          unfold gramsList
          rw [if_neg (by simp only [List.length_cons, not_lt]; omega)]
          exact hg'
        rw [mem_analyze_grams_iff]
        refine ⟨underscore :: tok, ?_, hg''⟩
        show underscore :: tok ∈ (tokenize (replaceAll txt)).map (fun x => underscore :: x)
        rw [List.mem_map]
        exact ⟨tok, htok, rfl⟩
    have hcand : dd ∈ s.idx.queryTrigrams (analyze p).1 := by
      unfold TrigramIndex.queryTrigrams
      rw [if_neg (by simpa [List.isEmpty_iff] using hgne)]
      rw [List.mem_filter]
      refine ⟨List.mem_range.2 hlt, ?_⟩
      rw [List.all_eq_true]
      intro g hg
      have hgm : g ∈ gramsOfWords m.saWords := by
        rw [hws]
        exact hsub g hg
      obtain ⟨v, hv, hddv⟩ := hPC dd m hm g hgm
      rw [hv]
      cases v with
      | none => rfl
      | some l => simpa [List.elem_iff] using hddv l rfl
    have hrun : searchNC s p = .results
        ((s.idx.queryTrigrams (analyze p).1).filterMap (fun d =>
          match alookup d s.docs with
          | none => none
          | some m => if ((analyze p).2).all (fun w => saLookup (buildSaText m.saWords) w)
                      then some m.id else none)) := by
      unfold searchNC
      simp only [search]
      rw [if_neg (by simpa [List.isEmpty_iff] using hgne)]
      rw [searchLoop_ctxNone, List.nil_append]
    refine ⟨_, hrun, ?_⟩
    rw [List.mem_filterMap]
    refine ⟨dd, hcand, ?_⟩
    rw [hm]
    have hwords : (analyze txt).2 =
        (tokenize (replaceAll txt)).map (fun x => underscore :: x) := rfl
    have hcond : ((analyze p).2).all
        (fun w => saLookup (buildSaText m.saWords) w) = true := by
      rw [hanq]
      simp only [List.all_cons, List.all_nil, Bool.and_true]
      rw [hws, hwords, saLookup_word_iff (fun tk htk => (tokenize_wf _ tk htk).2) hpne hpb]
      exact ⟨tok, htok, hp⟩
    show (if ((analyze p).2).all (fun w => saLookup (buildSaText m.saWords) w)
        then some m.id else none) = some e
    rw [if_pos hcond, hmid]
  · intro sub hsne hsb hnot r hr hmem
    obtain ⟨hq, dd', m', hlook, hmid', hall⟩ := search_results_mem hr hmem
    obtain ⟨txt', hws'⟩ := hWF (dd', m') (alookup_mem_pair hlook)
    have hanq : analyze sub = (extract (underscore :: sub) [], [underscore :: sub]) :=
      analyze_single_tok hsne hsb
    rw [hanq] at hall
    simp only [List.all_cons, List.all_nil, Bool.and_true] at hall
    have hws'' : m'.saWords = (analyze txt').2 := hws'
    rw [hws''] at hall
    have hwords' : (analyze txt').2 =
        (tokenize (replaceAll txt')).map (fun x => underscore :: x) := rfl
    rw [hwords', saLookup_word_iff (fun tk htk => (tokenize_wf _ tk htk).2) hsne hsb] at hall
    obtain ⟨tok, htok, hpfx⟩ := hall
    refine hnot (dd', m') (alookup_mem_pair hlook) (underscore :: tok) ?_ ?_
    · show underscore :: tok ∈ m'.saWords
      rw [hws'', hwords']
      exact List.mem_map_of_mem _ htok
    · exact List.cons_prefix_cons.2 ⟨rfl, hpfx⟩

/-- Witness for C2 at a concrete input: on the three-document corpus, `brow`
(a length-4 prefix of the token `brown` of document 1's text) finds document
1, and `row` (not a prefix of any token of any indexed document) does not
return it. -/
theorem C2_pfx_matching_witness :
    (∃ r, searchNC svc3 (bytes "brow") = .results r ∧ 1 ∈ r) ∧
    (∀ r, searchNC svc3 (bytes "row") = .results r → 1 ∉ r) := by
  have h := C2_pfx_matching svc3
    ⟨[] ++ [docOne, docTwo, docThree].map Doc.ID,
      ReachableH.step _ _ _ _ ReachableH.init (by decide)⟩
    1 0 ⟨(analyze (bytes "The quick brown fox jumps over the lazy dog")).2, 1⟩
    (bytes "The quick brown fox jumps over the lazy dog")
    (by decide) (by decide) rfl
  exact ⟨h.1 (bytes "brown") (by decide) (bytes "brow") (by decide) (by decide),
    fun r hr => h.2 (bytes "row") (by decide) (by decide) (by decide) r hr⟩

end Fulltext
